import Mathlib

/-!
Shallow embedding of the LeviathanWebXR spatiotemporal indexing core and
verification of its specification claims.

Embedded components (translated from the JavaScript source):
* SpatialGrid            — src/unnamed/part_000
* TimeChunker            — src/src/data/TimeChunker.js  (the spec's TemporalIndex)
* DensityAggregator      — src/src/rendering/DensityAggregator.js
* confidence             — src/src/rendering/WhaleInstanceRenderer.js,
                           method _computeConfidenceFromData (the spec's ConfidenceEstimator)

Modelling conventions:
* JS numbers are modelled as exact rationals (ℚ); Math.floor is ⌊·⌋, Math.ceil is ⌈·⌉.
* Math.exp and Math.log10 are modelled as Real.exp and Real.logb 10 over ℝ.
* A JS Map is modelled as an association list in insertion order: Map.get is
  lookupA, mutation of an existing entry is updateFirst, Map.set of a fresh key
  appends at the end.  Keys in such a list are unique by construction.
* Typed-array histograms (Uint32Array(8) / Uint32Array(10)) are modelled as
  total functions from the index type to ℕ; the source only ever increments
  indices that are in range for the point sets considered here (species ids in
  [0,7], times in [0,1]), so sums over the fixed windows agree with the arrays.
-/

namespace Leviathan

/-! ### Association-list model of a JS Map -/

section AssocMap

variable {κ β : Type} [DecidableEq κ]

/-- Map.get: first entry with the given key. -/
def lookupA (k : κ) : List (κ × β) → Option β
  | [] => none
  | e :: rest => if e.1 = k then some e.2 else lookupA k rest

/-- In-place mutation of the (unique) entry with the given key. -/
def updateFirst (k : κ) (f : β → β) : List (κ × β) → List (κ × β)
  | [] => []
  | e :: rest => if e.1 = k then (e.1, f e.2) :: rest else e :: updateFirst k f rest

theorem lookupA_append (k : κ) (l₁ l₂ : List (κ × β)) :
    lookupA k (l₁ ++ l₂) = ((lookupA k l₁).rec (lookupA k l₂) fun b => some b) := by
  induction l₁ with
  | nil => simp [lookupA]
  | cons e rest ih =>
      by_cases h : e.1 = k <;> simp [lookupA, h, ih]

theorem lookupA_eq_none_iff (k : κ) (l : List (κ × β)) :
    lookupA k l = none ↔ k ∉ l.map Prod.fst := by
  induction l with
  | nil => simp [lookupA]
  | cons e rest ih =>
      by_cases h : e.1 = k
      · simp [lookupA, h]
      · simp [lookupA, h, ih, Ne.symm h]

theorem lookupA_updateFirst_self (k : κ) (f : β → β) (l : List (κ × β)) :
    lookupA k (updateFirst k f l) = (lookupA k l).map f := by
  induction l with
  | nil => simp [lookupA, updateFirst]
  | cons e rest ih =>
      by_cases h : e.1 = k <;> simp [lookupA, updateFirst, h, ih]

theorem lookupA_updateFirst_ne (k k' : κ) (hk : k' ≠ k) (f : β → β) (l : List (κ × β)) :
    lookupA k (updateFirst k' f l) = lookupA k l := by
  induction l with
  | nil => simp [lookupA, updateFirst]
  | cons e rest ih =>
      by_cases h : e.1 = k'
      · have : e.1 ≠ k := h ▸ hk
        simp [lookupA, updateFirst, h, this, hk]
      · by_cases h2 : e.1 = k <;> simp [lookupA, updateFirst, h, h2, ih, hk, Ne.symm hk]

theorem map_fst_updateFirst (k : κ) (f : β → β) (l : List (κ × β)) :
    (updateFirst k f l).map Prod.fst = l.map Prod.fst := by
  induction l with
  | nil => rfl
  | cons e rest ih =>
      by_cases h : e.1 = k <;> simp [updateFirst, h, ih]

theorem lookupA_of_mem_nodup {k : κ} {b : β} {l : List (κ × β)}
    (hnd : (l.map Prod.fst).Nodup) (hm : (k, b) ∈ l) : lookupA k l = some b := by
  induction l with
  | nil => simp at hm
  | cons e rest ih =>
      simp only [List.map_cons, List.nodup_cons] at hnd
      rcases List.mem_cons.mp hm with h | h
      · simp [lookupA, ← h]
      · have hk : e.1 ≠ k := by
          intro he
          exact hnd.1 (he ▸ (List.mem_map.mpr ⟨(k, b), h, rfl⟩))
        simp [lookupA, hk, ih hnd.2 h]

theorem mem_of_lookupA {k : κ} {b : β} {l : List (κ × β)}
    (h : lookupA k l = some b) : (k, b) ∈ l := by
  induction l with
  | nil => simp [lookupA] at h
  | cons e rest ih =>
      by_cases he : e.1 = k
      · simp only [lookupA, he, if_pos] at h
        cases h
        exact List.mem_cons.mpr (Or.inl (by rw [← he]))
      · simp only [lookupA, he, if_neg, not_false_iff] at h
        exact List.mem_cons.mpr (Or.inr (ih h))

theorem sum_map_updateFirst (k : κ) (f : β → β) (g : β → ℕ) (l : List (κ × β))
    (hf : ∀ b, g (f b) = g b + 1) {b₀ : β} (hl : lookupA k l = some b₀) :
    ((updateFirst k f l).map (fun e => g e.2)).sum = (l.map (fun e => g e.2)).sum + 1 := by
  induction l with
  | nil => simp [lookupA] at hl
  | cons e rest ih =>
      by_cases h : e.1 = k
      · simp [updateFirst, h, hf]
        ring
      · simp only [lookupA, h, if_neg, not_false_iff] at hl
        simp [updateFirst, h, ih hl]
        ring

/-! ### The get-or-create-then-accumulate insertion pattern shared by
SpatialGrid._insertPoints and DensityAggregator._aggregateLevel -/

/-- One loop iteration: look the point's cell up, create it on first use
(appending to the map, as JS Map.set does for a fresh key), then accumulate
the point into it. -/
def accStep (key : ℕ → κ) (add : ℕ → β → β) (init : β)
    (st : List (κ × β)) (i : ℕ) : List (κ × β) :=
  match lookupA (key i) st with
  | some _ => updateFirst (key i) (add i) st
  | none => st ++ [(key i, add i init)]

/-- The whole single build pass over points 0,…,n-1 starting from an empty map. -/
def accList (key : ℕ → κ) (add : ℕ → β → β) (init : β) (n : ℕ) : List (κ × β) :=
  (List.range n).foldl (accStep key add init) []

/-- The points that land in cell k. -/
def groupOf (key : ℕ → κ) (n : ℕ) (k : κ) : List ℕ :=
  (List.range n).filter (fun i => key i = k)

theorem lookupA_accList (key : ℕ → κ) (add : ℕ → β → β) (init : β) (n : ℕ) (k : κ) :
    lookupA k (accList key add init n) =
      if groupOf key n k = [] then none
      else some ((groupOf key n k).foldl (fun b i => add i b) init) := by
  induction n with
  | zero => simp [accList, groupOf, lookupA]
  | succ n ih =>
      have hstep : accList key add init (n + 1) =
          accStep key add init (accList key add init n) n := by
        simp [accList, List.range_succ]
      have hgrp : groupOf key (n + 1) k =
          groupOf key n k ++ if key n = k then [n] else [] := by
        simp only [groupOf, List.range_succ, List.filter_append]
        by_cases h : key n = k <;> simp [h]
      by_cases hk : key n = k
      · rw [hstep, accStep]
        cases hcase : lookupA (key n) (accList key add init n) with
        | some b =>
            rw [hk] at hcase
            rw [hk, lookupA_updateFirst_self, hcase]
            rw [ih] at hcase
            by_cases hg : groupOf key n k = []
            · simp [hg] at hcase
            · simp only [hg, if_neg, not_false_iff] at hcase
              have hb : b = (groupOf key n k).foldl (fun b i => add i b) init :=
                (Option.some.injEq _ _ ▸ hcase).symm
              have : groupOf key (n + 1) k ≠ [] := by
                rw [hgrp, if_pos hk]
                simp
              rw [if_neg this, hgrp, if_pos hk, List.foldl_append, hb]
              rfl
        | none =>
            rw [hk] at hcase
            have hcase' := hcase
            rw [ih] at hcase'
            by_cases hg : groupOf key n k = []
            · have hgg : groupOf key (n + 1) k = [n] := by
                rw [hgrp, if_pos hk, hg]
                rfl
              rw [lookupA_append, hk, hcase, hgg]
              simp [lookupA]
            · simp [hg] at hcase'
      · have hgrp' : groupOf key (n + 1) k = groupOf key n k := by
          rw [hgrp, if_neg hk]
          simp
        rw [hstep, accStep]
        cases hcase : lookupA (key n) (accList key add init n) with
        | some b =>
            rw [lookupA_updateFirst_ne k (key n) hk, ih, hgrp']
        | none =>
            rw [lookupA_append]
            have : lookupA k [(key n, add n init)] = none := by simp [lookupA, hk]
            rw [this, ih, hgrp']
            cases hres : (if groupOf key n k = [] then (none : Option β)
                else some ((groupOf key n k).foldl (fun b i => add i b) init)) <;> simp

theorem nodup_keys_accList (key : ℕ → κ) (add : ℕ → β → β) (init : β) (n : ℕ) :
    ((accList key add init n).map Prod.fst).Nodup := by
  induction n with
  | zero => simp [accList]
  | succ n ih =>
      have hstep : accList key add init (n + 1) =
          accStep key add init (accList key add init n) n := by
        simp [accList, List.range_succ]
      rw [hstep, accStep]
      cases hcase : lookupA (key n) (accList key add init n) with
      | some b => rw [map_fst_updateFirst]; exact ih
      | none =>
          rw [lookupA_eq_none_iff] at hcase
          simp only [List.map_append, List.map_cons, List.map_nil]
          exact List.Nodup.append ih (List.nodup_singleton _)
            (by simpa [List.disjoint_right] using hcase)

theorem mem_accList {key : ℕ → κ} {add : ℕ → β → β} {init : β} {n : ℕ}
    {k : κ} {b : β} (h : (k, b) ∈ accList key add init n) :
    groupOf key n k ≠ [] ∧ b = (groupOf key n k).foldl (fun b i => add i b) init := by
  have := lookupA_of_mem_nodup (nodup_keys_accList key add init n) h
  rw [lookupA_accList] at this
  by_cases hg : groupOf key n k = []
  · simp [hg] at this
  · simp only [hg, if_neg, not_false_iff, Option.some.injEq] at this
    exact ⟨hg, this.symm⟩

theorem key_mem_of_mem_accList {key : ℕ → κ} {add : ℕ → β → β} {init : β} {n : ℕ}
    {k : κ} {b : β} (h : (k, b) ∈ accList key add init n) : ∃ i < n, key i = k := by
  obtain ⟨hne, -⟩ := mem_accList h
  obtain ⟨i, hi⟩ := List.exists_mem_of_ne_nil _ hne
  simp only [groupOf, List.mem_filter, List.mem_range, decide_eq_true_eq] at hi
  exact ⟨i, hi.1, hi.2⟩

theorem sum_accList (key : ℕ → κ) (add : ℕ → β → β) (init : β) (n : ℕ)
    (g : β → ℕ) (h0 : g init = 0) (h1 : ∀ i b, g (add i b) = g b + 1) :
    ((accList key add init n).map (fun e => g e.2)).sum = n := by
  induction n with
  | zero => simp [accList]
  | succ n ih =>
      have hstep : accList key add init (n + 1) =
          accStep key add init (accList key add init n) n := by
        simp [accList, List.range_succ]
      rw [hstep, accStep]
      cases hcase : lookupA (key n) (accList key add init n) with
      | some b =>
          rw [sum_map_updateFirst (key n) (add n) g _ (h1 n) hcase, ih]
      | none =>
          simp [List.map_append, ih, h1, h0]

/-- Accumulator extraction: any additive observation of the per-cell fold. -/
theorem foldl_add_extract {M : Type} [AddCommMonoid M] (add : ℕ → β → β)
    (w : ℕ → M) (h : β → M) (hadd : ∀ i b, h (add i b) = h b + w i) :
    ∀ (l : List ℕ) (b : β),
      h (l.foldl (fun b i => add i b) b) = h b + (l.map w).sum := by
  intro l
  induction l with
  | nil => simp
  | cons a t ih =>
      intro b
      simp only [List.foldl_cons, List.map_cons, List.sum_cons, ih, hadd]
      rw [add_assoc]

end AssocMap

/-! ### Small list/sum helpers -/

theorem sum_map_ite_one {α : Type} (p : α → Prop) [DecidablePred p] (l : List α) :
    (l.map (fun a => if p a then (1 : ℕ) else 0)).sum = (l.filter (fun a => p a)).length := by
  induction l with
  | nil => rfl
  | cons a t ih =>
      by_cases h : p a <;> simp [h, ih, Nat.add_comm]

theorem sum_fiber_count {γ : Type} [DecidableEq γ] (l : List ℕ) (f : ℕ → γ)
    (s : Finset γ) (hf : ∀ i ∈ l, f i ∈ s) :
    (∑ t ∈ s, (l.filter (fun i => f i = t)).length) = l.length := by
  induction l with
  | nil => simp
  | cons a tl ih =>
      have hmem : f a ∈ s := hf a (List.mem_cons_self a tl)
      have htl : ∀ i ∈ tl, f i ∈ s := fun i hi => hf i (List.mem_cons_of_mem a hi)
      have : ∀ t ∈ s, ((a :: tl).filter (fun i => f i = t)).length =
          (tl.filter (fun i => f i = t)).length + (if t = f a then 1 else 0) := by
        intro t _
        by_cases h : f a = t
        · rw [if_pos h.symm]
          simp [List.filter_cons, h]
        · rw [if_neg (fun he => h he.symm)]
          simp [List.filter_cons, h]
      rw [Finset.sum_congr rfl this, Finset.sum_add_distrib,
        Finset.sum_ite_eq' s (f a) (fun _ => (1 : ℕ)), if_pos hmem, ih htl]
      simp [Nat.add_comm]

/-! ### Point set (the normalized parallel-array data model) -/

/-- Normalized point set: parallel arrays of positions, times, species ids and
density weights (processedData in the source). -/
structure PointSet where
  positions : List (ℚ × ℚ × ℚ)
  times : List ℚ
  species : List ℕ
  densities : List ℚ

def PointSet.count (d : PointSet) : ℕ := d.positions.length

def PointSet.pos (d : PointSet) (i : ℕ) : ℚ × ℚ × ℚ := d.positions.getD i (0, 0, 0)

def PointSet.time (d : PointSet) (i : ℕ) : ℚ := d.times.getD i 0

def PointSet.sid (d : PointSet) (i : ℕ) : ℕ := d.species.getD i 0

def PointSet.dens (d : PointSet) (i : ℕ) : ℚ := d.densities.getD i 0

/-- Data-model invariant (spec §3): all parallel arrays share length count,
species ids lie in [0,7], times lie in [0,1]. -/
def ValidPointSet (d : PointSet) : Prop :=
  d.times.length = d.count ∧ d.species.length = d.count ∧ d.densities.length = d.count ∧
  (∀ i < d.count, 0 ≤ d.time i ∧ d.time i ≤ 1) ∧ (∀ i < d.count, d.sid i ≤ 7)

/-! ### SpatialGrid (src/unnamed/part_000) -/

/-- A grid cell's aggregates.  The source also stores the cell's world bounds
(minX..maxZ); those are never read by any query and are omitted.  The source's
_finalizeCells deletes the running sums after use as a memory optimisation;
the deletion is not modelled (no theorem below reads sums after finalize). -/
structure GridCell where
  count : ℕ
  speciesHistogram : ℕ → ℕ
  timeHistogram : ℤ → ℕ
  sumX : ℚ
  sumY : ℚ
  sumZ : ℚ
  sumTime : ℚ
  centroid : Option (ℚ × ℚ × ℚ)
  avgTime : ℚ
  dominantSpecies : ℕ

/-- _createCell: zeroed aggregates, centroid null until finalized. -/
def createCell : GridCell :=
  ⟨0, fun _ => 0, fun _ => 0, 0, 0, 0, 0, none, 0, 0⟩

/-- histogram[k]++ on a total-function histogram. -/
def bump {γ : Type} [DecidableEq γ] (h : γ → ℕ) (k : γ) : γ → ℕ :=
  fun k' => if k' = k then h k' + 1 else h k'

/-- Time histogram bucket: Math.min(9, Math.floor(times[i] * 10)). -/
def timeBucket (t : ℚ) : ℤ := min 9 ⌊t * 10⌋

/-- The per-point accumulation body of _insertPoints (count++, histogram
increments, centroid/time running sums). -/
def addPointToCell (d : PointSet) (i : ℕ) (c : GridCell) : GridCell :=
  { c with
    count := c.count + 1
    speciesHistogram := bump c.speciesHistogram (d.sid i)
    timeHistogram := bump c.timeHistogram (timeBucket (d.time i))
    sumX := c.sumX + (d.pos i).1
    sumY := c.sumY + (d.pos i).2.1
    sumZ := c.sumZ + (d.pos i).2.2
    sumTime := c.sumTime + d.time i }

/-- _computeBounds: min/max over all positions (the source's ±Infinity fold
equals folding from the first position), padded by cellSize/2 on each side;
the empty point set gets the default unit box. -/
def computeBounds (cellSize : ℚ) (d : PointSet) : (ℚ × ℚ × ℚ) × (ℚ × ℚ × ℚ) :=
  match d.positions with
  | [] => ((0, 0, 0), (1, 1, 1))
  | p :: rest =>
    let mn := rest.foldl (fun m q => (min m.1 q.1, min m.2.1 q.2.1, min m.2.2 q.2.2)) p
    let mx := rest.foldl (fun m q => (max m.1 q.1, max m.2.1 q.2.1, max m.2.2 q.2.2)) p
    let pad := cellSize * (1 / 2)
    ((mn.1 - pad, mn.2.1 - pad, mn.2.2 - pad), (mx.1 + pad, mx.2.1 + pad, mx.2.2 + pad))

/-- _computeGridDimensions: per-axis Math.max(1, Math.ceil(extent / cellSize)). -/
def computeGridDims (gridMin gridMax : ℚ × ℚ × ℚ) (cellSize : ℚ) : ℕ × ℕ × ℕ :=
  ((max 1 ⌈(gridMax.1 - gridMin.1) / cellSize⌉).toNat,
   (max 1 ⌈(gridMax.2.1 - gridMin.2.1) / cellSize⌉).toNat,
   (max 1 ⌈(gridMax.2.2 - gridMin.2.2) / cellSize⌉).toNat)

/-- Per-axis clamp of a cell index into [0, dim-1]. -/
def clampIdx (dim : ℕ) (v : ℤ) : ℤ := max 0 (min ((dim : ℤ) - 1) v)

/-- Cell index of a position: floor-divide each coordinate offset by cellSize,
then clamp into the grid (the _insertPoints index computation). -/
def cellIndexOf (gridMin : ℚ × ℚ × ℚ) (gridDims : ℕ × ℕ × ℕ) (cellSize : ℚ)
    (p : ℚ × ℚ × ℚ) : ℤ × ℤ × ℤ :=
  (clampIdx gridDims.1 ⌊(p.1 - gridMin.1) / cellSize⌋,
   clampIdx gridDims.2.1 ⌊(p.2.1 - gridMin.2.1) / cellSize⌋,
   clampIdx gridDims.2.2 ⌊(p.2.2 - gridMin.2.2) / cellSize⌋)

/-- _findDominantSpecies / the finalize dominant-species scan: left-to-right
over bins 0..7, strictly-greater updates (first maximum wins). -/
def findDominantSpecies (h : ℕ → ℕ) : ℕ :=
  ((List.range 8).foldl (fun acc s => if h s > acc.2 then (s, h s) else acc) (0, 0)).1

/-- The per-cell part of _finalizeCells (cells with count 0 are skipped). -/
def finalizeCell (c : GridCell) : GridCell :=
  if c.count = 0 then c
  else
    { c with
      centroid := some (c.sumX / c.count, c.sumY / c.count, c.sumZ / c.count)
      avgTime := c.sumTime / c.count
      dominantSpecies := findDominantSpecies c.speciesHistogram }

structure SpatialGrid where
  cellSize : ℚ
  gridMin : ℚ × ℚ × ℚ
  gridMax : ℚ × ℚ × ℚ
  gridDims : ℕ × ℕ × ℕ
  cells : List ((ℤ × ℤ × ℤ) × GridCell)
  totalCells : ℕ
  populatedCells : ℕ
  totalPoints : ℕ
  built : Bool

/-- The SpatialGrid constructor. -/
def SpatialGrid.mkGrid (cellSize : ℚ) : SpatialGrid :=
  ⟨cellSize, (0, 0, 0), (0, 0, 0), (0, 0, 0), [], 0, 0, 0, false⟩

/-- SpatialGrid.build.  Note: the source constructor creates this.cells once
and build never clears it, so insertion starts from the grid's current cell
map (g.cells below), not from an empty one. -/
def SpatialGrid.build (g : SpatialGrid) (d : PointSet) : SpatialGrid :=
  let b := computeBounds g.cellSize d
  let dims := computeGridDims b.1 b.2 g.cellSize
  let cells1 := (List.range d.count).foldl
    (accStep (fun i => cellIndexOf b.1 dims g.cellSize (d.pos i)) (addPointToCell d) createCell)
    g.cells
  let cells2 := cells1.map (fun e => (e.1, finalizeCell e.2))
  { g with
    gridMin := b.1
    gridMax := b.2
    gridDims := dims
    totalCells := dims.1 * dims.2.1 * dims.2.2
    cells := cells2
    populatedCells := (cells2.filter (fun e => 0 < e.2.count)).length
    totalPoints := d.count
    built := true }

/-- Aggregated sphere-query result.  The source's empty result carries no
minTime/maxTime fields; they are 0 here. -/
structure QueryResult where
  totalCount : ℕ
  speciesHistogram : ℕ → ℕ
  timeHistogram : ℤ → ℕ
  cellsQueried : ℕ
  minTime : ℚ
  maxTime : ℚ
  dominantSpecies : ℕ
  timeSpan : ℚ × ℚ

/-- _emptyResult. -/
def emptyResult : QueryResult :=
  ⟨0, fun _ => 0, fun _ => 0, 0, 0, 0, 0, (0, 0)⟩

/-- Integer range a..b inclusive (the for-loop from a while ≤ b). -/
def intRange (a b : ℤ) : List ℤ :=
  (List.range (b + 1 - a).toNat).map (fun (j : ℕ) => a + (j : ℤ))

def distSq (a b : ℚ × ℚ × ℚ) : ℚ :=
  (a.1 - b.1) ^ 2 + (a.2.1 - b.2.1) ^ 2 + (a.2.2 - b.2.2) ^ 2

/-- The candidate cell keys of querySphere: per axis, floor/ceil of the
sphere's bounding cube clamped to the grid, traversed in nested loop order. -/
def sphereKeys (gridDims : ℕ × ℕ × ℕ) (gridMin : ℚ × ℚ × ℚ) (cellSize : ℚ)
    (center : ℚ × ℚ × ℚ) (radius : ℚ) : List (ℤ × ℤ × ℤ) :=
  let startX := max 0 ⌊(center.1 - radius - gridMin.1) / cellSize⌋
  let endX := min ((gridDims.1 : ℤ) - 1) ⌈(center.1 + radius - gridMin.1) / cellSize⌉
  let startY := max 0 ⌊(center.2.1 - radius - gridMin.2.1) / cellSize⌋
  let endY := min ((gridDims.2.1 : ℤ) - 1) ⌈(center.2.1 + radius - gridMin.2.1) / cellSize⌉
  let startZ := max 0 ⌊(center.2.2 - radius - gridMin.2.2) / cellSize⌋
  let endZ := min ((gridDims.2.2 : ℤ) - 1) ⌈(center.2.2 + radius - gridMin.2.2) / cellSize⌉
  (intRange startX endX).flatMap fun cx =>
    (intRange startY endY).flatMap fun cy =>
      (intRange startZ endZ).map fun cz => (cx, cy, cz)

/-- The querySphere loop body: skip missing/empty/unfinalized cells, include a
cell iff its centroid lies within the radius, merging the aggregates.  The
source merges the histograms entrywise over indices 0..7 / 0..9; on cells
built from valid point sets all histogram mass lies in those windows, so the
total-function pointwise sum used here agrees. -/
def queryStep (cells : List ((ℤ × ℤ × ℤ) × GridCell)) (center : ℚ × ℚ × ℚ)
    (radiusSq : ℚ) (acc : QueryResult) (k : ℤ × ℤ × ℤ) : QueryResult :=
  match lookupA k cells with
  | none => acc
  | some c =>
    if c.count = 0 then acc
    else
      match c.centroid with
      | none => acc
      | some cen =>
        if distSq cen center ≤ radiusSq then
          { acc with
            cellsQueried := acc.cellsQueried + 1
            totalCount := acc.totalCount + c.count
            speciesHistogram := fun s => acc.speciesHistogram s + c.speciesHistogram s
            timeHistogram := fun t => acc.timeHistogram t + c.timeHistogram t
            minTime := min acc.minTime c.avgTime
            maxTime := max acc.maxTime c.avgTime }
        else acc

/-- SpatialGrid.querySphere. -/
def SpatialGrid.querySphere (g : SpatialGrid) (center : ℚ × ℚ × ℚ) (radius : ℚ) :
    QueryResult :=
  if g.built = false then emptyResult
  else
    let acc0 : QueryResult := ⟨0, fun _ => 0, fun _ => 0, 0, 1, 0, 0, (0, 0)⟩
    let acc := (sphereKeys g.gridDims g.gridMin g.cellSize center radius).foldl
      (queryStep g.cells center (radius * radius)) acc0
    { acc with
      dominantSpecies := findDominantSpecies acc.speciesHistogram
      timeSpan := if 0 < acc.totalCount then (acc.minTime, acc.maxTime) else (0, 0) }

structure GridStats where
  cellSize : ℚ
  gridDims : ℕ × ℕ × ℕ
  totalCells : ℕ
  populatedCells : ℕ
  totalPoints : ℕ
  memoryEstimate : ℕ

/-- SpatialGrid.getStats. -/
def SpatialGrid.getStats (g : SpatialGrid) : GridStats :=
  ⟨g.cellSize, g.gridDims, g.totalCells, g.populatedCells, g.totalPoints,
   g.populatedCells * 100⟩

/-! ### TimeChunker (src/src/data/TimeChunker.js) -/

/-- The comparator underlying the build sort.  The source stable-sorts the
(index, time) pairs by (a, b) => a.time - b.time; since the pairs start in
index order and carry pairwise-distinct indices, that stable sort returns the
unique permutation sorted by the lexicographic order (time, index), which is
what this total order expresses. -/
def pairLe (a b : ℕ × ℚ) : Bool :=
  decide (a.2 < b.2) || (decide (a.2 = b.2) && decide (a.1 ≤ b.1))

/-- The indexed = {index: i, time: times[i]} array built by the first loop. -/
def indexedPairs (d : PointSet) : List (ℕ × ℚ) :=
  (List.range d.count).map (fun i => (i, d.time i))

/-- indexed.sort((a, b) => a.time - b.time). -/
def sortedPairs (d : PointSet) : List (ℕ × ℚ) :=
  (indexedPairs d).mergeSort pairLe

/-- One chunk record {startIndex, endIndex, timeStart, timeEnd}. -/
structure Chunk where
  startIndex : ℕ
  endIndex : ℕ
  timeStart : ℚ
  timeEnd : ℚ

structure TimeChunker where
  chunkCount : ℕ
  chunks : List Chunk
  sortedIndices : Option (List ℕ)
  data : Option PointSet

/-- The TimeChunker constructor (chunks = [], sortedIndices = data = null). -/
def TimeChunker.mkChunker (chunkCount : ℕ) : TimeChunker :=
  ⟨chunkCount, [], none, none⟩

/-- The loop state of the chunk-boundary pass: chunks built so far (the source
index currentChunk is chunks.length), chunkStart, and the outer loop index i
(pos). -/
structure ChunkBuildState where
  chunks : List Chunk
  chunkStart : ℕ
  pos : ℕ

/-- targetChunk = Math.min(Math.floor(time / chunkSize), chunkCount - 1). -/
def targetChunkOf (chunkCount : ℕ) (t : ℚ) : ℤ :=
  min ⌊t / ((1 : ℚ) / chunkCount)⌋ ((chunkCount : ℤ) - 1)

/-- The inner while loop of build: while currentChunk < targetChunk, emit
chunk {startIndex: chunkStart, endIndex: i} and set chunkStart = i. -/
def fillTo (chunkCount : ℕ) (target : ℤ) (st : ChunkBuildState) : ChunkBuildState :=
  if _h : (st.chunks.length : ℤ) < target then
    fillTo chunkCount target
      { chunks := st.chunks ++
          [⟨st.chunkStart, st.pos, (st.chunks.length : ℚ) * ((1 : ℚ) / chunkCount),
            ((st.chunks.length : ℚ) + 1) * ((1 : ℚ) / chunkCount)⟩]
        chunkStart := st.pos
        pos := st.pos }
  else st
termination_by (target - st.chunks.length).toNat
decreasing_by
  simp only [List.length_append, List.length_cons, List.length_nil]
  omega

/-- One iteration of the outer loop of build over the sorted pairs. -/
def chunkStep (chunkCount : ℕ) (st : ChunkBuildState) (p : ℕ × ℚ) : ChunkBuildState :=
  let st' := fillTo chunkCount (targetChunkOf chunkCount p.2) st
  { st' with pos := st'.pos + 1 }

/-- The trailing while loop of build: fill the remaining chunks with
{startIndex: chunkStart, endIndex: count}; chunkStart is not advanced. -/
def fillRemaining (chunkCount cnt : ℕ) (st : ChunkBuildState) : ChunkBuildState :=
  if _h : st.chunks.length < chunkCount then
    fillRemaining chunkCount cnt
      { st with chunks := st.chunks ++
          [⟨st.chunkStart, cnt, (st.chunks.length : ℚ) * ((1 : ℚ) / chunkCount),
            ((st.chunks.length : ℚ) + 1) * ((1 : ℚ) / chunkCount)⟩] }
  else st
termination_by chunkCount - st.chunks.length
decreasing_by
  simp only [List.length_append, List.length_cons, List.length_nil]
  omega

/-- TimeChunker.build. -/
def TimeChunker.build (tc : TimeChunker) (d : PointSet) : TimeChunker :=
  let sp := sortedPairs d
  let st := sp.foldl (chunkStep tc.chunkCount) ⟨[], 0, 0⟩
  let st2 := fillRemaining tc.chunkCount d.count st
  { tc with
    chunks := st2.chunks
    sortedIndices := some (sp.map Prod.fst)
    data := some d }

/-- _binarySearchLower (lower bound of targetTime over the sorted times). -/
def bsearchLower (times : List ℚ) (si : List ℕ) (tgt : ℚ) (low high : ℕ) : ℕ :=
  if _h : low < high then
    let mid := (low + high) / 2
    if times.getD (si.getD mid 0) 0 < tgt then bsearchLower times si tgt (mid + 1) high
    else bsearchLower times si tgt low mid
  else low
termination_by high - low
decreasing_by all_goals omega

/-- _binarySearchUpper (upper bound, ≤ instead of <). -/
def bsearchUpper (times : List ℚ) (si : List ℕ) (tgt : ℚ) (low high : ℕ) : ℕ :=
  if _h : low < high then
    let mid := (low + high) / 2
    if times.getD (si.getD mid 0) 0 ≤ tgt then bsearchUpper times si tgt (mid + 1) high
    else bsearchUpper times si tgt low mid
  else low
termination_by high - low
decreasing_by all_goals omega

/-- TimeChunker.getVisibleRange.  The source guards on !this.sortedIndices
and each binary search additionally guards on !this.data; both fields are
null before build and set together by build, so the single match below is
behaviourally identical. -/
def TimeChunker.getVisibleRange (tc : TimeChunker) (currentTime window : ℚ) : ℕ × ℕ :=
  match tc.sortedIndices, tc.data with
  | some si, some d =>
      (bsearchLower d.times si (currentTime - window) 0 si.length,
       bsearchUpper d.times si (currentTime + window) 0 si.length)
  | _, _ => (0, 0)

/-- TimeChunker.getOverlappingChunks: pure arithmetic on the chunk grid; note
that it reads only this.chunkCount, never the built index. -/
def TimeChunker.getOverlappingChunks (tc : TimeChunker) (minTime maxTime : ℚ) : List ℤ :=
  let chunkSize := (1 : ℚ) / tc.chunkCount
  let startChunk := max 0 ⌊minTime / chunkSize⌋
  let endChunk := min ((tc.chunkCount : ℤ) - 1) ⌊maxTime / chunkSize⌋
  intRange startChunk endChunk

/-! ### DensityAggregator (src/src/rendering/DensityAggregator.js) -/

/-- Per-key accumulator of _aggregateLevel. -/
structure DCell where
  sumX : ℚ
  sumY : ℚ
  sumZ : ℚ
  sumT : ℚ
  sumD : ℚ
  count : ℕ
  speciesCounts : ℕ → ℕ

def createDCell : DCell := ⟨0, 0, 0, 0, 0, 0, fun _ => 0⟩

/-- The composite spatial+time key (cellX, cellY, cellZ, cellT) with 30 fixed
time buckets. -/
def dKeyOf (cellSize : ℚ) (d : PointSet) (i : ℕ) : ℤ × ℤ × ℤ × ℤ :=
  (⌊(d.pos i).1 / cellSize⌋, ⌊(d.pos i).2.1 / cellSize⌋, ⌊(d.pos i).2.2 / cellSize⌋,
   ⌊d.time i * 30⌋)

/-- The per-point accumulation body of _aggregateLevel (densities are always
present in the normalized point set, so the source's densities ? d : 1
fallback always takes the densities branch). -/
def addPointToDCell (d : PointSet) (i : ℕ) (c : DCell) : DCell :=
  { c with
    sumX := c.sumX + (d.pos i).1
    sumY := c.sumY + (d.pos i).2.1
    sumZ := c.sumZ + (d.pos i).2.2
    sumT := c.sumT + d.time i
    sumD := c.sumD + d.dens i
    count := c.count + 1
    speciesCounts := bump c.speciesCounts (d.sid i) }

/-- The cells map built by the aggregation loop of _aggregateLevel. -/
def dCells (d : PointSet) (cellSize : ℚ) : List ((ℤ × ℤ × ℤ × ℤ) × DCell) :=
  accList (dKeyOf cellSize d) (addPointToDCell d) createDCell d.count

/-- One LOD level's point set (level 0 keeps the source arrays; levels ≥ 1 are
produced by aggregateLevel). -/
structure LevelData where
  positions : List (ℚ × ℚ × ℚ)
  times : List ℚ
  species : List ℕ
  densities : List ℝ
  count : ℕ
  lodLevel : ℕ

/-- _aggregateLevel: one output record per cell, in map insertion order;
representative position/time are means, species is the first-max histogram
bin, density is min(1, log10(count + 1) / 3). -/
noncomputable def aggregateLevel (d : PointSet) (cellSize : ℚ) (lodLevel : ℕ) : LevelData :=
  let cells := dCells d cellSize
  { positions := cells.map fun e =>
      (e.2.sumX / (e.2.count : ℚ), e.2.sumY / (e.2.count : ℚ), e.2.sumZ / (e.2.count : ℚ))
    times := cells.map fun e => e.2.sumT / (e.2.count : ℚ)
    species := cells.map fun e => findDominantSpecies e.2.speciesCounts
    densities := cells.map fun e => min 1 (Real.logb 10 ((e.2.count : ℝ) + 1) / 3)
    count := cells.length
    lodLevel := lodLevel }

/-- Level 0: {...processedData, lodLevel: 0}. -/
noncomputable def fineLevel (d : PointSet) : LevelData :=
  ⟨d.positions, d.times, d.species, d.densities.map (fun q => (q : ℝ)), d.count, 0⟩

structure DensityAggregator where
  cellSizeMedium : ℚ
  cellSizeCoarse : ℚ
  fine : Option LevelData
  medium : Option LevelData
  coarse : Option LevelData
  sourceData : Option PointSet

/-- The DensityAggregator constructor (levels all null). -/
def DensityAggregator.mkAggregator (cellSizeMedium cellSizeCoarse : ℚ) : DensityAggregator :=
  ⟨cellSizeMedium, cellSizeCoarse, none, none, none, none⟩

/-- DensityAggregator.process. -/
noncomputable def DensityAggregator.process (ag : DensityAggregator) (d : PointSet) :
    DensityAggregator :=
  { ag with
    sourceData := some d
    fine := some (fineLevel d)
    medium := some (aggregateLevel d ag.cellSizeMedium 1)
    coarse := some (aggregateLevel d ag.cellSizeCoarse 2) }

/-! ### Confidence (WhaleInstanceRenderer._computeConfidenceFromData) -/

/-- The per-point confidence formula:
clamp((0.2 + 0.7·(1 − e^(−3·density))) · (1 − 0.25·lodLevel), 0.1, 0.95). -/
noncomputable def confidence (density : ℝ) (lodLevel : ℕ) : ℝ :=
  let lodConfidenceMultiplier : ℝ := 1 - (lodLevel : ℝ) * 0.25
  let densityConfidence : ℝ := 0.2 + 0.7 * (1 - Real.exp (-density * 3))
  max 0.1 (min 0.95 (densityConfidence * lodConfidenceMultiplier))

/-! ### Helper facts about the confidence formula -/

theorem ceil_eval (q : ℚ) : ⌈q⌉ = -⌊-q⌋ := by
  conv_lhs => rw [← neg_neg q]
  rw [Int.ceil_neg]

theorem densityConfidence_lt (x : ℝ) :
    0.2 + 0.7 * (1 - Real.exp (-x * 3)) < 0.9 := by
  have h := Real.exp_pos (-x * 3)
  nlinarith

theorem densityConfidence_ge (x : ℝ) (hx : 0 ≤ x) :
    0.2 ≤ 0.2 + 0.7 * (1 - Real.exp (-x * 3)) := by
  have h : Real.exp (-x * 3) ≤ Real.exp 0 := Real.exp_le_exp.mpr (by nlinarith)
  rw [Real.exp_zero] at h
  nlinarith

theorem confidence_le (x : ℝ) (l : ℕ) : confidence x l ≤ 0.95 := by
  simp only [confidence]
  exact max_le (by norm_num) (min_le_left _ _)

theorem confidence_ge (x : ℝ) (l : ℕ) : (0.1 : ℝ) ≤ confidence x l :=
  le_max_left _ _

theorem confidence_lt_of_lod_le (x : ℝ) (l : ℕ) (hl : l ≤ 2) :
    confidence x l < 0.95 := by
  have hm1 : (1 : ℝ) - (l : ℝ) * 0.25 ≤ 1 := by
    have : (0 : ℝ) ≤ (l : ℝ) := Nat.cast_nonneg l
    nlinarith
  have hm0 : (0 : ℝ) < 1 - (l : ℝ) * 0.25 := by
    have : (l : ℝ) ≤ 2 := by exact_mod_cast hl
    nlinarith
  have hdc := densityConfidence_lt x
  have hprod : (0.2 + 0.7 * (1 - Real.exp (-x * 3))) * (1 - (l : ℝ) * 0.25) < 0.95 := by
    set dc := 0.2 + 0.7 * (1 - Real.exp (-x * 3)) with hdcdef
    rcases le_or_lt dc 0 with hneg | hpos
    · nlinarith
    · nlinarith
  simp only [confidence]
  exact max_lt (by norm_num) (lt_of_le_of_lt (min_le_right _ _) hprod)

/-- C4 counterexample input check: at densityWeight 0 and lodLevel 2 the
clamped product is exactly the lower clamp 0.1 (0.2 · 0.5 = 0.1). -/
theorem confidence_zero_two : confidence 0 2 = 0.1 := by
  simp only [confidence]
  rw [show (-(0 : ℝ) * 3) = 0 by ring, Real.exp_zero]
  norm_num

/-- C4 (corrected): for densityWeight in [0,1] and lodLevel in {0,1,2} the
confidence lies in the half-open interval [0.1, 0.95): it is strictly below
0.95, but it attains the lower clamp 0.1 (at densityWeight 0, lodLevel 2),
so it is not strictly inside (0.1, 0.95). -/
theorem confidence_in_clamped_range (x : ℝ) (l : ℕ)
    (_hx0 : 0 ≤ x) (_hx1 : x ≤ 1) (hl : l ≤ 2) :
    (0.1 : ℝ) ≤ confidence x l ∧ confidence x l < 0.95 :=
  ⟨confidence_ge x l, confidence_lt_of_lod_le x l hl⟩

theorem confidence_in_clamped_range_witness :
    (0.1 : ℝ) ≤ confidence 0 2 ∧ confidence 0 2 < 0.95 :=
  confidence_in_clamped_range 0 2 (le_refl 0) zero_le_one (le_refl 2)

/-- C8 (confirmed): the confidence output always lies in [0.1, 0.95]; for a
fixed lodLevel in {0,1,2} it is monotone non-decreasing in densityWeight, and
for a fixed densityWeight in [0,1] it is monotone non-increasing in lodLevel
over {0,1,2}. -/
theorem confidence_bounds_and_monotone :
    (∀ (x : ℝ) (l : ℕ), (0.1 : ℝ) ≤ confidence x l ∧ confidence x l ≤ 0.95) ∧
    (∀ (x y : ℝ) (l : ℕ), l ≤ 2 → x ≤ y → confidence x l ≤ confidence y l) ∧
    (∀ (x : ℝ) (l l' : ℕ), 0 ≤ x → x ≤ 1 → l ≤ l' → l' ≤ 2 →
      confidence x l' ≤ confidence x l) := by
  refine ⟨fun x l => ⟨confidence_ge x l, confidence_le x l⟩, ?_, ?_⟩
  · intro x y l hl hxy
    have hm0 : (0 : ℝ) ≤ 1 - (l : ℝ) * 0.25 := by
      have : (l : ℝ) ≤ 2 := by exact_mod_cast hl
      nlinarith
    have hdc : 0.2 + 0.7 * (1 - Real.exp (-x * 3)) ≤
        0.2 + 0.7 * (1 - Real.exp (-y * 3)) := by
      have := Real.exp_le_exp.mpr (show -y * 3 ≤ -x * 3 by nlinarith)
      nlinarith
    simp only [confidence]
    exact max_le_max le_rfl (min_le_min le_rfl (by nlinarith))
  · intro x l l' hx0 hx1 hll hl2
    have hm : 1 - (l' : ℝ) * 0.25 ≤ 1 - (l : ℝ) * 0.25 := by
      have : (l : ℝ) ≤ (l' : ℝ) := by exact_mod_cast hll
      nlinarith
    have hdc : (0 : ℝ) ≤ 0.2 + 0.7 * (1 - Real.exp (-x * 3)) := by
      have := densityConfidence_ge x hx0
      nlinarith
    simp only [confidence]
    exact max_le_max le_rfl (min_le_min le_rfl (by nlinarith))

theorem confidence_bounds_and_monotone_witness :
    confidence 0 2 ≤ confidence 0 0 :=
  confidence_bounds_and_monotone.2.2 0 0 2 (le_refl 0) zero_le_one (Nat.zero_le 2)
    (le_refl 2)

/-! ### Query-before-build and double-build behaviour -/

theorem length_intRange (a b : ℤ) : (intRange a b).length = (b + 1 - a).toNat := by
  rw [intRange, List.length_map, List.length_range]

/-- C5 counterexample: getOverlappingChunks on a never-built TimeChunker (the
constructor default of 30 chunks) returns the 30-element arithmetic chunk-id
list for the range [0,1], not an empty list. -/
theorem getOverlappingChunks_before_build_nonempty :
    ((TimeChunker.mkChunker 30).getOverlappingChunks 0 1).length = 30 := by
  have h1 : (TimeChunker.mkChunker 30).getOverlappingChunks 0 1 = intRange 0 29 := by
    norm_num [TimeChunker.getOverlappingChunks, TimeChunker.mkChunker]
  rw [h1, length_intRange]
  rfl

/-- C5 (corrected): querySphere on an unbuilt grid returns the all-zero empty
result and getVisibleRange before build returns the empty range {0, 0}; but
getOverlappingChunks does not return an empty list before build — it never
reads the built index at all, computing the same arithmetic chunk-id list
before and after any build (and in particular never throws). -/
theorem query_before_build_defined :
    (∀ (cs : ℚ) (center : ℚ × ℚ × ℚ) (radius : ℚ),
      (SpatialGrid.mkGrid cs).querySphere center radius = emptyResult) ∧
    (∀ (n : ℕ) (t w : ℚ),
      (TimeChunker.mkChunker n).getVisibleRange t w = (0, 0)) ∧
    (∀ (tc : TimeChunker) (d : PointSet) (a b : ℚ),
      (tc.build d).getOverlappingChunks a b = tc.getOverlappingChunks a b) :=
  ⟨fun _ _ _ => rfl, fun _ _ _ => rfl, fun _ _ _ _ => rfl⟩

/-- C2 (corrected, holding part): TimeChunker.build and
DensityAggregator.process overwrite every piece of built state, so building on
A and then on B is indistinguishable from building on B alone. -/
theorem rebuild_replaces_state_chunker_aggregator :
    (∀ (tc : TimeChunker) (a b : PointSet), (tc.build a).build b = tc.build b) ∧
    (∀ (ag : DensityAggregator) (a b : PointSet),
      (ag.process a).process b = ag.process b) :=
  ⟨fun _ _ _ => rfl, fun _ _ _ => rfl⟩

/-! ### Characterization of the cells produced by SpatialGrid.build -/

theorem sum_map_one {α : Type} (l : List α) : (l.map (fun _ => (1 : ℕ))).sum = l.length := by
  induction l with
  | nil => rfl
  | cons a t ih => simp [ih, Nat.add_comm]

theorem filter_eq_comm {α γ : Type} [DecidableEq γ] (f : α → γ) (v : γ) (l : List α) :
    (l.filter fun i => v = f i) = (l.filter fun i => f i = v) := by
  apply List.filter_congr
  intro i _
  exact decide_eq_decide.mpr eq_comm

/-- The accumulated cell of an arbitrary list of point indices. -/
def cellAgg (d : PointSet) (l : List ℕ) : GridCell :=
  l.foldl (fun b i => addPointToCell d i b) createCell

theorem cellAgg_count (d : PointSet) (l : List ℕ) : (cellAgg d l).count = l.length := by
  have h := foldl_add_extract (addPointToCell d) (fun _ => (1 : ℕ))
    (fun c => c.count) (fun i b => rfl) l createCell
  rw [cellAgg, h, sum_map_one]
  simp [createCell]

theorem cellAgg_sumX (d : PointSet) (l : List ℕ) :
    (cellAgg d l).sumX = (l.map (fun i => (d.pos i).1)).sum := by
  have h := foldl_add_extract (addPointToCell d) (fun i => (d.pos i).1)
    (fun c => c.sumX) (fun i b => rfl) l createCell
  rw [cellAgg, h]
  simp [createCell]

theorem cellAgg_sumY (d : PointSet) (l : List ℕ) :
    (cellAgg d l).sumY = (l.map (fun i => (d.pos i).2.1)).sum := by
  have h := foldl_add_extract (addPointToCell d) (fun i => (d.pos i).2.1)
    (fun c => c.sumY) (fun i b => rfl) l createCell
  rw [cellAgg, h]
  simp [createCell]

theorem cellAgg_sumZ (d : PointSet) (l : List ℕ) :
    (cellAgg d l).sumZ = (l.map (fun i => (d.pos i).2.2)).sum := by
  have h := foldl_add_extract (addPointToCell d) (fun i => (d.pos i).2.2)
    (fun c => c.sumZ) (fun i b => rfl) l createCell
  rw [cellAgg, h]
  simp [createCell]

theorem cellAgg_speciesHistogram (d : PointSet) (l : List ℕ) (s : ℕ) :
    (cellAgg d l).speciesHistogram s = (l.filter (fun i => d.sid i = s)).length := by
  have hadd : ∀ (i : ℕ) (b : GridCell),
      (addPointToCell d i b).speciesHistogram s =
        b.speciesHistogram s + (if s = d.sid i then 1 else 0) := by
    intro i b
    by_cases h : s = d.sid i <;> simp [addPointToCell, bump, h]
  have h := foldl_add_extract (addPointToCell d)
    (fun i => if s = d.sid i then (1 : ℕ) else 0)
    (fun c => c.speciesHistogram s) hadd l createCell
  rw [cellAgg, h, sum_map_ite_one, filter_eq_comm]
  simp [createCell]

theorem cellAgg_timeHistogram (d : PointSet) (l : List ℕ) (t : ℤ) :
    (cellAgg d l).timeHistogram t =
      (l.filter (fun i => timeBucket (d.time i) = t)).length := by
  have hadd : ∀ (i : ℕ) (b : GridCell),
      (addPointToCell d i b).timeHistogram t =
        b.timeHistogram t + (if t = timeBucket (d.time i) then 1 else 0) := by
    intro i b
    by_cases h : t = timeBucket (d.time i) <;> simp [addPointToCell, bump, h]
  have h := foldl_add_extract (addPointToCell d)
    (fun i => if t = timeBucket (d.time i) then (1 : ℕ) else 0)
    (fun c => c.timeHistogram t) hadd l createCell
  rw [cellAgg, h, sum_map_ite_one, filter_eq_comm]
  simp [createCell]

theorem finalizeCell_count (c : GridCell) : (finalizeCell c).count = c.count := by
  rw [finalizeCell]
  by_cases h : c.count = 0 <;> simp [h]

/-- The cell key function used by a fresh build. -/
def buildKey (cs : ℚ) (d : PointSet) : ℕ → ℤ × ℤ × ℤ :=
  fun i => cellIndexOf (computeBounds cs d).1
    (computeGridDims (computeBounds cs d).1 (computeBounds cs d).2 cs) cs (d.pos i)

theorem build_cells_eq (cs : ℚ) (d : PointSet) :
    ((SpatialGrid.mkGrid cs).build d).cells =
      (accList (buildKey cs d) (addPointToCell d) createCell d.count).map
        (fun e => (e.1, finalizeCell e.2)) := rfl

theorem mem_build_cells (cs : ℚ) (d : PointSet) {k : ℤ × ℤ × ℤ} {c : GridCell}
    (h : (k, c) ∈ ((SpatialGrid.mkGrid cs).build d).cells) :
    groupOf (buildKey cs d) d.count k ≠ [] ∧
      c = finalizeCell (cellAgg d (groupOf (buildKey cs d) d.count k)) := by
  rw [build_cells_eq] at h
  obtain ⟨⟨k', c'⟩, hmem, heq⟩ := List.mem_map.mp h
  obtain ⟨h1, h2⟩ := mem_accList hmem
  cases heq
  exact ⟨h1, by rw [h2]; rfl⟩

theorem build_populated_count_sum (cs : ℚ) (d : PointSet) :
    ((((SpatialGrid.mkGrid cs).build d).cells.filter (fun e => 0 < e.2.count)).map
      (fun e => e.2.count)).sum = d.count := by
  have hall : ∀ e ∈ ((SpatialGrid.mkGrid cs).build d).cells, 0 < e.2.count := by
    intro e he
    obtain ⟨k, c⟩ := e
    obtain ⟨hne, hc⟩ := mem_build_cells cs d he
    rw [hc, finalizeCell_count, cellAgg_count]
    exact List.length_pos.mpr hne
  rw [List.filter_eq_self.mpr (by intro e he; exact decide_eq_true (hall e he))]
  rw [build_cells_eq, List.map_map]
  have : ((fun e : (ℤ × ℤ × ℤ) × GridCell => e.2.count) ∘
      (fun e : (ℤ × ℤ × ℤ) × GridCell => (e.1, finalizeCell e.2))) =
      fun e => e.2.count := by
    funext e
    exact finalizeCell_count e.2
  rw [this]
  exact sum_accList _ _ _ _ (fun c : GridCell => c.count) rfl (fun i b => rfl)

/-- C1 (confirmed): after a fresh SpatialGrid.build on a valid point set, the
per-cell counts over the populated cells sum to the input count — every point
is inserted into exactly one (clamped) cell, none duplicated or dropped. -/
theorem spatialGrid_build_partition (cs : ℚ) (d : PointSet) (_hv : ValidPointSet d) :
    ((((SpatialGrid.mkGrid cs).build d).cells.filter (fun e => 0 < e.2.count)).map
      (fun e => e.2.count)).sum = d.count :=
  build_populated_count_sum cs d

/-- A concrete single-point valid point set. -/
def dOnePoint : PointSet := ⟨[(0, 0, 0)], [0], [0], [0]⟩

theorem dOnePoint_valid : ValidPointSet dOnePoint := by
  refine ⟨rfl, rfl, rfl, ?_, ?_⟩ <;> intro i hi <;>
    (have hi0 : i = 0 := by
      simpa [dOnePoint, PointSet.count, Nat.lt_one_iff] using hi) <;> subst hi0
  · exact ⟨le_refl 0, zero_le_one⟩
  · norm_num [dOnePoint, PointSet.sid]

theorem spatialGrid_build_partition_witness :
    ((((SpatialGrid.mkGrid 1).build dOnePoint).cells.filter
      (fun e => 0 < e.2.count)).map (fun e => e.2.count)).sum = dOnePoint.count :=
  spatialGrid_build_partition 1 dOnePoint dOnePoint_valid

/-! ### C2 counterexample: stale SpatialGrid cells across rebuilds -/

/-- Two points far enough apart to occupy two distinct cells. -/
def dTwoPoints : PointSet := ⟨[(0, 0, 0), (10, 0, 0)], [0, 0], [0, 0], [0, 0]⟩

/-- C2 counterexample: building the spatial grid on dTwoPoints and then
rebuilding on dOnePoint leaves the first build's second cell in the map, so
getStats reports 2 populated cells where a fresh build on dOnePoint reports 1
— the rebuilt grid's observables do not match a freshly built grid's. -/
theorem spatialGrid_double_build_stale_cells :
    (((SpatialGrid.mkGrid 1).build dTwoPoints).build dOnePoint).getStats.populatedCells
        = 2 ∧
      ((SpatialGrid.mkGrid 1).build dOnePoint).getStats.populatedCells = 1 := by
  constructor <;>
    norm_num [SpatialGrid.getStats, SpatialGrid.build, SpatialGrid.mkGrid,
      computeBounds, computeGridDims, cellIndexOf, clampIdx, accStep, lookupA,
      updateFirst, addPointToCell, createCell, finalizeCell, dTwoPoints, dOnePoint,
      PointSet.count, PointSet.pos, PointSet.time, PointSet.sid, ceil_eval,
      List.range_succ, max_def, min_def, List.filter]

/-! ### C10: histogram sums of querySphere results -/

theorem finalizeCell_speciesHistogram (c : GridCell) :
    (finalizeCell c).speciesHistogram = c.speciesHistogram := by
  rw [finalizeCell]
  by_cases h : c.count = 0 <;> simp [h]

theorem finalizeCell_timeHistogram (c : GridCell) :
    (finalizeCell c).timeHistogram = c.timeHistogram := by
  rw [finalizeCell]
  by_cases h : c.count = 0 <;> simp [h]

theorem timeBucket_mem_Icc (t : ℚ) (h0 : 0 ≤ t) : timeBucket t ∈ Finset.Icc (0 : ℤ) 9 := by
  rw [Finset.mem_Icc, timeBucket]
  constructor
  · exact le_min (by norm_num) (Int.floor_nonneg.mpr (by nlinarith))
  · exact min_le_left _ _

/-- Every cell of a freshly built grid on a valid point set has species- and
time-histogram mass summing to its count. -/
theorem build_cell_hist_sums (cs : ℚ) (d : PointSet) (hv : ValidPointSet d)
    {k : ℤ × ℤ × ℤ} {c : GridCell}
    (h : (k, c) ∈ ((SpatialGrid.mkGrid cs).build d).cells) :
    (∑ s ∈ Finset.range 8, c.speciesHistogram s) = c.count ∧
      (∑ t ∈ Finset.Icc (0 : ℤ) 9, c.timeHistogram t) = c.count := by
  obtain ⟨hne, hc⟩ := mem_build_cells cs d h
  have hgrpmem : ∀ i ∈ groupOf (buildKey cs d) d.count k, i < d.count := by
    intro i hi
    have := List.mem_filter.mp hi
    exact List.mem_range.mp this.1
  subst hc
  rw [finalizeCell_count, finalizeCell_speciesHistogram, finalizeCell_timeHistogram,
    cellAgg_count]
  constructor
  · have hrw : ∀ s ∈ Finset.range 8,
        (cellAgg d (groupOf (buildKey cs d) d.count k)).speciesHistogram s =
          ((groupOf (buildKey cs d) d.count k).filter (fun i => d.sid i = s)).length :=
      fun s _ => cellAgg_speciesHistogram d _ s
    rw [Finset.sum_congr rfl hrw]
    exact sum_fiber_count _ _ _ (fun i hi =>
      Finset.mem_range.mpr (Nat.lt_succ_of_le (hv.2.2.2.2 i (hgrpmem i hi))))
  · have hrw : ∀ t ∈ Finset.Icc (0 : ℤ) 9,
        (cellAgg d (groupOf (buildKey cs d) d.count k)).timeHistogram t =
          ((groupOf (buildKey cs d) d.count k).filter
            (fun i => timeBucket (d.time i) = t)).length :=
      fun t _ => cellAgg_timeHistogram d _ t
    rw [Finset.sum_congr rfl hrw]
    exact sum_fiber_count _ _ _ (fun i hi =>
      timeBucket_mem_Icc _ (hv.2.2.2.1 i (hgrpmem i hi)).1)

/-- The sphere-query fold preserves the histogram-sum invariants. -/
theorem query_fold_hist_invariant (cells : List ((ℤ × ℤ × ℤ) × GridCell))
    (center : ℚ × ℚ × ℚ) (rsq : ℚ)
    (hcells : ∀ e ∈ cells,
      (∑ s ∈ Finset.range 8, e.2.speciesHistogram s) = e.2.count ∧
        (∑ t ∈ Finset.Icc (0 : ℤ) 9, e.2.timeHistogram t) = e.2.count)
    (L : List (ℤ × ℤ × ℤ)) :
    ∀ acc : QueryResult,
      (∑ s ∈ Finset.range 8, acc.speciesHistogram s) = acc.totalCount →
      (∑ t ∈ Finset.Icc (0 : ℤ) 9, acc.timeHistogram t) = acc.totalCount →
      (∑ s ∈ Finset.range 8, (L.foldl (queryStep cells center rsq) acc).speciesHistogram s)
          = (L.foldl (queryStep cells center rsq) acc).totalCount ∧
        (∑ t ∈ Finset.Icc (0 : ℤ) 9,
            (L.foldl (queryStep cells center rsq) acc).timeHistogram t)
          = (L.foldl (queryStep cells center rsq) acc).totalCount := by
  induction L with
  | nil => exact fun acc h1 h2 => ⟨h1, h2⟩
  | cons key tl ih =>
      intro acc h1 h2
      rw [List.foldl_cons]
      apply ih
      · rw [queryStep]
        cases hcase : lookupA key cells with
        | none => exact h1
        | some c =>
            by_cases hz : c.count = 0
            · simp only [hz, if_pos]
              exact h1
            · simp only [hz, if_neg, not_false_iff]
              cases hcen : c.centroid with
              | none => exact h1
              | some cen =>
                  by_cases hd : distSq cen center ≤ rsq
                  · simp only [hd, if_pos]
                    have hc := (hcells (key, c) (mem_of_lookupA hcase)).1
                    simp only [Finset.sum_add_distrib, h1, hc]
                  · simp only [hd, if_neg, not_false_iff]
                    exact h1
      · rw [queryStep]
        cases hcase : lookupA key cells with
        | none => exact h2
        | some c =>
            by_cases hz : c.count = 0
            · simp only [hz, if_pos]
              exact h2
            · simp only [hz, if_neg, not_false_iff]
              cases hcen : c.centroid with
              | none => exact h2
              | some cen =>
                  by_cases hd : distSq cen center ≤ rsq
                  · simp only [hd, if_pos]
                    have hc := (hcells (key, c) (mem_of_lookupA hcase)).2
                    simp only [Finset.sum_add_distrib, h2, hc]
                  · simp only [hd, if_neg, not_false_iff]
                    exact h2

/-- C10 (confirmed): for a grid freshly built on a valid point set — and for
an unbuilt grid — every sphere query's result has its 8 species-histogram
entries and its 10 time-histogram entries each summing to totalCount. -/
theorem querySphere_histogram_sums (cs : ℚ) (d : PointSet)
    (center : ℚ × ℚ × ℚ) (radius : ℚ) (hv : ValidPointSet d) :
    ((∑ s ∈ Finset.range 8,
        ((SpatialGrid.mkGrid cs).querySphere center radius).speciesHistogram s)
      = ((SpatialGrid.mkGrid cs).querySphere center radius).totalCount ∧
     (∑ t ∈ Finset.Icc (0 : ℤ) 9,
        ((SpatialGrid.mkGrid cs).querySphere center radius).timeHistogram t)
      = ((SpatialGrid.mkGrid cs).querySphere center radius).totalCount) ∧
    ((∑ s ∈ Finset.range 8,
        (((SpatialGrid.mkGrid cs).build d).querySphere center radius).speciesHistogram s)
      = (((SpatialGrid.mkGrid cs).build d).querySphere center radius).totalCount ∧
     (∑ t ∈ Finset.Icc (0 : ℤ) 9,
        (((SpatialGrid.mkGrid cs).build d).querySphere center radius).timeHistogram t)
      = (((SpatialGrid.mkGrid cs).build d).querySphere center radius).totalCount) := by
  constructor
  · constructor <;> simp [SpatialGrid.querySphere, SpatialGrid.mkGrid, emptyResult]
  · have hbuilt : ((SpatialGrid.mkGrid cs).build d).built = true := rfl
    have hq : ((SpatialGrid.mkGrid cs).build d).querySphere center radius =
        (let acc := (sphereKeys ((SpatialGrid.mkGrid cs).build d).gridDims
            ((SpatialGrid.mkGrid cs).build d).gridMin
            ((SpatialGrid.mkGrid cs).build d).cellSize center radius).foldl
          (queryStep ((SpatialGrid.mkGrid cs).build d).cells center (radius * radius))
          ⟨0, fun _ => 0, fun _ => 0, 0, 1, 0, 0, (0, 0)⟩
        { acc with
          dominantSpecies := findDominantSpecies acc.speciesHistogram
          timeSpan := if 0 < acc.totalCount then (acc.minTime, acc.maxTime)
            else (0, 0) }) := by
      rw [SpatialGrid.querySphere, hbuilt]
      simp
    rw [hq]
    have := query_fold_hist_invariant ((SpatialGrid.mkGrid cs).build d).cells center
      (radius * radius)
      (fun e he => by
        obtain ⟨k, c⟩ := e
        exact build_cell_hist_sums cs d hv he)
      (sphereKeys ((SpatialGrid.mkGrid cs).build d).gridDims
        ((SpatialGrid.mkGrid cs).build d).gridMin
        ((SpatialGrid.mkGrid cs).build d).cellSize center radius)
      ⟨0, fun _ => 0, fun _ => 0, 0, 1, 0, 0, (0, 0)⟩ (by simp) (by simp)
    exact this

theorem querySphere_histogram_sums_witness :
    (∑ s ∈ Finset.range 8,
        (((SpatialGrid.mkGrid 1).build dOnePoint).querySphere (0, 0, 0) 1).speciesHistogram s)
      = (((SpatialGrid.mkGrid 1).build dOnePoint).querySphere (0, 0, 0) 1).totalCount :=
  (querySphere_histogram_sums 1 dOnePoint (0, 0, 0) 1 dOnePoint_valid).2.1

/-! ### C7: the temporal permutation is sorted by time and stable -/

theorem pairLe_trans (a b c : ℕ × ℚ) (h1 : pairLe a b) (h2 : pairLe b c) : pairLe a c := by
  simp only [pairLe, Bool.or_eq_true, Bool.and_eq_true, decide_eq_true_eq] at *
  rcases h1 with h1 | ⟨e1, i1⟩ <;> rcases h2 with h2 | ⟨e2, i2⟩
  · exact Or.inl (lt_trans h1 h2)
  · exact Or.inl (e2 ▸ h1)
  · exact Or.inl (e1 ▸ h2)
  · exact Or.inr ⟨e1.trans e2, le_trans i1 i2⟩

theorem pairLe_total (a b : ℕ × ℚ) : pairLe a b || pairLe b a := by
  simp only [pairLe, Bool.or_eq_true, Bool.and_eq_true, decide_eq_true_eq]
  rcases lt_trichotomy a.2 b.2 with h | h | h
  · exact Or.inl (Or.inl h)
  · rcases le_total a.1 b.1 with h' | h'
    · exact Or.inl (Or.inr ⟨h, h'⟩)
    · exact Or.inr (Or.inr ⟨h.symm, h'⟩)
  · exact Or.inr (Or.inl h)

theorem sortedPairs_pairwise (d : PointSet) :
    List.Pairwise (fun a b => pairLe a b = true) (sortedPairs d) :=
  @List.sorted_mergeSort _ pairLe (fun a b c => pairLe_trans a b c)
    pairLe_total (indexedPairs d)

theorem sortedPairs_perm (d : PointSet) : (sortedPairs d).Perm (indexedPairs d) :=
  List.mergeSort_perm (indexedPairs d) pairLe

theorem mem_sortedPairs (d : PointSet) {p : ℕ × ℚ} (h : p ∈ sortedPairs d) :
    p.1 < d.count ∧ p.2 = d.time p.1 := by
  have := (sortedPairs_perm d).mem_iff.mp h
  simp only [indexedPairs, List.mem_map, List.mem_range] at this
  obtain ⟨i, hi, hp⟩ := this
  cases hp
  exact ⟨hi, rfl⟩

theorem sortedPairs_fst_perm_range (d : PointSet) :
    ((sortedPairs d).map Prod.fst).Perm (List.range d.count) := by
  have h := ((sortedPairs_perm d).map Prod.fst)
  have h2 : (Prod.fst ∘ fun i : ℕ => (i, d.time i)) = fun i : ℕ => i := rfl
  have : (indexedPairs d).map Prod.fst = List.range d.count := by
    rw [indexedPairs, List.map_map, h2, List.map_id']
  rwa [this] at h

theorem sortedPairs_fst_nodup (d : PointSet) :
    ((sortedPairs d).map Prod.fst).Nodup :=
  (sortedPairs_fst_perm_range d).symm.nodup_iff.mp (List.nodup_range d.count)

/-- C7 (confirmed): build stores the permutation sortedPairs.map fst; its
entries pair each original index with that record's time; it permutes
0,…,count-1; dereferencing it in sorted order yields non-decreasing times; and
on tied times the smaller original record index comes strictly first (the
stable-sort determinism guarantee). -/
theorem temporalIndex_sorted_stable (d : PointSet) :
    (∀ n : ℕ, ((TimeChunker.mkChunker n).build d).sortedIndices =
        some ((sortedPairs d).map Prod.fst)) ∧
    (∀ p ∈ sortedPairs d, p.1 < d.count ∧ p.2 = d.time p.1) ∧
    ((sortedPairs d).map Prod.fst).Perm (List.range d.count) ∧
    (∀ i j : Fin (sortedPairs d).length, i < j →
      ((sortedPairs d).get i).2 ≤ ((sortedPairs d).get j).2 ∧
        (((sortedPairs d).get i).2 = ((sortedPairs d).get j).2 →
          ((sortedPairs d).get i).1 < ((sortedPairs d).get j).1)) := by
  refine ⟨fun n => rfl, fun p hp => mem_sortedPairs d hp,
    sortedPairs_fst_perm_range d, fun i j hij => ?_⟩
  have hle := (List.pairwise_iff_get.mp (sortedPairs_pairwise d)) i j hij
  simp only [pairLe, Bool.or_eq_true, Bool.and_eq_true, decide_eq_true_eq] at hle
  have hne : ((sortedPairs d).get i).1 ≠ ((sortedPairs d).get j).1 := by
    intro he
    have hnd := sortedPairs_fst_nodup d
    have hgi : ((sortedPairs d).map Prod.fst).get ⟨i, by simp⟩ =
        ((sortedPairs d).get i).1 := List.get_map Prod.fst
    have hgj : ((sortedPairs d).map Prod.fst).get ⟨j, by simp⟩ =
        ((sortedPairs d).get j).1 := List.get_map Prod.fst
    have := hnd.get_inj_iff.mp (hgi.trans (he.trans hgj.symm))
    have hij' : (i : ℕ) ≠ (j : ℕ) := Nat.ne_of_lt hij
    exact hij' (by simpa using congrArg Fin.val this)
  rcases hle with hlt | ⟨heq, hidx⟩
  · exact ⟨le_of_lt hlt, fun he => absurd he (ne_of_lt hlt)⟩
  · exact ⟨le_of_eq heq, fun _ => lt_of_le_of_ne hidx hne⟩

/-- Two points with distinct times, out of order, for the C7 witness. -/
def dTwoTimes : PointSet := ⟨[(0, 0, 0), (0, 0, 0)], [1, 0], [0, 0], [0, 0]⟩

theorem dTwoTimes_sortedPairs_length : (sortedPairs dTwoTimes).length = 2 := by
  rw [sortedPairs, List.length_mergeSort]
  simp [indexedPairs, PointSet.count, dTwoTimes]

theorem temporalIndex_sorted_stable_witness :
    ((sortedPairs dTwoTimes).get ⟨0, by rw [dTwoTimes_sortedPairs_length]; norm_num⟩).2 ≤
      ((sortedPairs dTwoTimes).get ⟨1, by rw [dTwoTimes_sortedPairs_length]; norm_num⟩).2 :=
  ((temporalIndex_sorted_stable dTwoTimes).2.2.2
    ⟨0, by rw [dTwoTimes_sortedPairs_length]; norm_num⟩
    ⟨1, by rw [dTwoTimes_sortedPairs_length]; norm_num⟩
    (Fin.mk_lt_mk.mpr Nat.zero_lt_one)).1

/-! ### C9: aggregated levels do not depend on the input density weights -/

theorem lookupA_map_snd {κ β β' : Type} [DecidableEq κ] (f : β → β') (k : κ)
    (l : List (κ × β)) :
    lookupA k (l.map (fun e => (e.1, f e.2))) = (lookupA k l).map f := by
  induction l with
  | nil => simp [lookupA]
  | cons e rest ih =>
      by_cases h : e.1 = k <;> simp [lookupA, h, ih]

/-- Erase the (dead) density sum from a cell. -/
def stripCell (c : DCell) : DCell := { c with sumD := 0 }

/-- Erase the density sums from a whole cell map entry. -/
def stripE (e : (ℤ × ℤ × ℤ × ℤ) × DCell) : (ℤ × ℤ × ℤ × ℤ) × DCell :=
  (e.1, stripCell e.2)

section StripAgg

variable {A B : PointSet}

theorem pos_eq_of (hp : A.positions = B.positions) : ∀ i, A.pos i = B.pos i := by
  intro i
  rw [PointSet.pos, PointSet.pos, hp]

theorem time_eq_of (ht : A.times = B.times) : ∀ i, A.time i = B.time i := by
  intro i
  rw [PointSet.time, PointSet.time, ht]

theorem sid_eq_of (hs : A.species = B.species) : ∀ i, A.sid i = B.sid i := by
  intro i
  rw [PointSet.sid, PointSet.sid, hs]

theorem dKey_eq_of (hp : A.positions = B.positions) (ht : A.times = B.times)
    (cs : ℚ) : ∀ i, dKeyOf cs A i = dKeyOf cs B i := by
  intro i
  rw [dKeyOf, dKeyOf, pos_eq_of hp i, time_eq_of ht i]

theorem stripCell_add (hp : A.positions = B.positions) (ht : A.times = B.times)
    (hs : A.species = B.species) (i : ℕ) {c₁ c₂ : DCell}
    (hc : stripCell c₁ = stripCell c₂) :
    stripCell (addPointToDCell A i c₁) = stripCell (addPointToDCell B i c₂) := by
  cases c₁
  cases c₂
  simp only [stripCell, addPointToDCell, DCell.mk.injEq] at hc ⊢
  obtain ⟨h1, h2, h3, h4, -, h5, h6⟩ := hc
  subst h1 h2 h3 h4 h5 h6
  simp [pos_eq_of hp i, time_eq_of ht i, sid_eq_of hs i]

theorem map_stripE_updateFirst (hp : A.positions = B.positions)
    (ht : A.times = B.times) (hs : A.species = B.species) (k : ℤ × ℤ × ℤ × ℤ) (i : ℕ) :
    ∀ (l₁ l₂ : List ((ℤ × ℤ × ℤ × ℤ) × DCell)), l₁.map stripE = l₂.map stripE →
      (updateFirst k (addPointToDCell A i) l₁).map stripE =
        (updateFirst k (addPointToDCell B i) l₂).map stripE := by
  intro l₁
  induction l₁ with
  | nil =>
      intro l₂ hl
      rw [List.map_nil] at hl
      rw [List.map_eq_nil_iff.mp hl.symm]
      rfl
  | cons e₁ r₁ ih =>
      intro l₂ hl
      cases l₂ with
      | nil => simp at hl
      | cons e₂ r₂ =>
          simp only [List.map_cons, List.cons.injEq] at hl
          obtain ⟨he, hr⟩ := hl
          have hkey : e₁.1 = e₂.1 := by
            have := congrArg Prod.fst he
            simpa [stripE] using this
          have hcell : stripCell e₁.2 = stripCell e₂.2 := by
            have := congrArg Prod.snd he
            simpa [stripE] using this
          by_cases hk : e₁.1 = k
          · rw [updateFirst, updateFirst, if_pos hk, if_pos (hkey ▸ hk)]
            simp only [List.map_cons, List.cons.injEq]
            refine ⟨?_, hr⟩
            simp only [stripE]
            rw [hkey, stripCell_add hp ht hs i hcell]
          · rw [updateFirst, updateFirst, if_neg hk, if_neg (hkey ▸ hk)]
            simp only [List.map_cons, List.cons.injEq]
            exact ⟨he, ih r₂ hr⟩

theorem map_stripE_accList (hp : A.positions = B.positions) (ht : A.times = B.times)
    (hs : A.species = B.species) (cs : ℚ) (n : ℕ) :
    (accList (dKeyOf cs A) (addPointToDCell A) createDCell n).map stripE =
      (accList (dKeyOf cs B) (addPointToDCell B) createDCell n).map stripE := by
  induction n with
  | zero => rfl
  | succ n ih =>
      have hstepA : accList (dKeyOf cs A) (addPointToDCell A) createDCell (n + 1) =
          accStep (dKeyOf cs A) (addPointToDCell A) createDCell
            (accList (dKeyOf cs A) (addPointToDCell A) createDCell n) n := by
        simp [accList, List.range_succ]
      have hstepB : accList (dKeyOf cs B) (addPointToDCell B) createDCell (n + 1) =
          accStep (dKeyOf cs B) (addPointToDCell B) createDCell
            (accList (dKeyOf cs B) (addPointToDCell B) createDCell n) n := by
        simp [accList, List.range_succ]
      rw [hstepA, hstepB, accStep, accStep, dKey_eq_of hp ht cs n]
      set sA := accList (dKeyOf cs A) (addPointToDCell A) createDCell n with hsA
      set sB := accList (dKeyOf cs B) (addPointToDCell B) createDCell n with hsB
      have hlook : (lookupA (dKeyOf cs B n) sA).map stripCell =
          (lookupA (dKeyOf cs B n) sB).map stripCell := by
        have h1 := lookupA_map_snd stripCell (dKeyOf cs B n) sA
        have h2 := lookupA_map_snd stripCell (dKeyOf cs B n) sB
        rw [← h1, ← h2]
        have : sA.map (fun e => (e.1, stripCell e.2)) = sA.map stripE := rfl
        rw [this]
        have : sB.map (fun e => (e.1, stripCell e.2)) = sB.map stripE := rfl
        rw [this, ih]
      cases hA : lookupA (dKeyOf cs B n) sA with
      | none =>
          cases hB : lookupA (dKeyOf cs B n) sB with
          | none =>
              rw [List.map_append, List.map_append, ih]
              simp only [List.map_cons, List.map_nil, List.cons.injEq, and_true,
                stripE, Prod.mk.injEq, true_and]
              exact congrArg (fun c => List.map stripE sB ++ [(dKeyOf cs B n, c)])
                (stripCell_add hp ht hs n
                  (rfl : stripCell createDCell = stripCell createDCell))
          | some cB => rw [hA, hB] at hlook; simp at hlook
      | some cA =>
          cases hB : lookupA (dKeyOf cs B n) sB with
          | none => rw [hA, hB] at hlook; simp at hlook
          | some cB => exact map_stripE_updateFirst hp ht hs _ n sA sB ih

theorem count_eq_of (hp : A.positions = B.positions) : A.count = B.count := by
  rw [PointSet.count, PointSet.count, hp]

theorem map_stripE_dCells (hp : A.positions = B.positions) (ht : A.times = B.times)
    (hs : A.species = B.species) (cs : ℚ) :
    (dCells A cs).map stripE = (dCells B cs).map stripE := by
  rw [dCells, dCells, ← count_eq_of hp]
  exact map_stripE_accList hp ht hs cs A.count

theorem map_factor_stripE {γ : Type} (hp : A.positions = B.positions)
    (ht : A.times = B.times) (hs : A.species = B.species) (cs : ℚ)
    (f : (ℤ × ℤ × ℤ × ℤ) × DCell → γ) (hf : ∀ e, f (stripE e) = f e) :
    (dCells A cs).map f = (dCells B cs).map f := by
  have h1 : (dCells A cs).map f = ((dCells A cs).map stripE).map f := by
    rw [List.map_map]
    exact (List.map_congr_left (fun e _ => (hf e).symm))
  have h2 : (dCells B cs).map f = ((dCells B cs).map stripE).map f := by
    rw [List.map_map]
    exact (List.map_congr_left (fun e _ => (hf e).symm))
  rw [h1, h2, map_stripE_dCells hp ht hs cs]

theorem aggregateLevel_eq_of (hp : A.positions = B.positions) (ht : A.times = B.times)
    (hs : A.species = B.species) (cs : ℚ) (lod : ℕ) :
    aggregateLevel A cs lod = aggregateLevel B cs lod := by
  have hlen : (dCells A cs).length = (dCells B cs).length := by
    have := congrArg List.length (map_stripE_dCells hp ht hs cs)
    simpa using this
  rw [aggregateLevel, aggregateLevel]
  simp only [LevelData.mk.injEq]
  refine ⟨?_, ?_, ?_, ?_, hlen, trivial⟩
  · exact map_factor_stripE hp ht hs cs _ (fun e => rfl)
  · exact map_factor_stripE hp ht hs cs _ (fun e => rfl)
  · exact map_factor_stripE hp ht hs cs _ (fun e => rfl)
  · exact map_factor_stripE hp ht hs cs _ (fun e => rfl)

end StripAgg

/-- The accumulated aggregation cell of a list of point indices. -/
def dCellAgg (d : PointSet) (l : List ℕ) : DCell :=
  l.foldl (fun b i => addPointToDCell d i b) createDCell

theorem dCellAgg_count (d : PointSet) (l : List ℕ) : (dCellAgg d l).count = l.length := by
  have h := foldl_add_extract (addPointToDCell d) (fun _ => (1 : ℕ))
    (fun c => c.count) (fun i b => rfl) l createDCell
  rw [dCellAgg, h, sum_map_one]
  simp [createDCell]

theorem mem_dCells (d : PointSet) (cs : ℚ) {k : ℤ × ℤ × ℤ × ℤ} {c : DCell}
    (h : (k, c) ∈ dCells d cs) :
    groupOf (dKeyOf cs d) d.count k ≠ [] ∧
      c.count = (groupOf (dKeyOf cs d) d.count k).length := by
  obtain ⟨h1, h2⟩ := mem_accList h
  exact ⟨h1, by rw [h2, ← dCellAgg, dCellAgg_count]⟩

/-- C9 (confirmed): two point sets that differ only in their density weights
produce identical medium (level 1) and coarse (level 2) point sets; each
aggregated density equals min(1, log10(k+1)/3) where k is the number of input
points merged into that composite key, so every aggregated density lies in
[0,1] and never depends on the input density weights. -/
theorem densityAggregator_ignores_density_weights (A B : PointSet)
    (hp : A.positions = B.positions) (ht : A.times = B.times)
    (hs : A.species = B.species) :
    (∀ ag : DensityAggregator,
      (ag.process A).medium = (ag.process B).medium ∧
        (ag.process A).coarse = (ag.process B).coarse) ∧
    (∀ (cs : ℚ) (lod : ℕ), aggregateLevel A cs lod = aggregateLevel B cs lod) ∧
    (∀ (d : PointSet) (cs : ℚ) (lod : ℕ),
      (aggregateLevel d cs lod).densities = (dCells d cs).map (fun e =>
        min 1 (Real.logb 10
          (((groupOf (dKeyOf cs d) d.count e.1).length : ℝ) + 1) / 3)) ∧
      ∀ x ∈ (aggregateLevel d cs lod).densities, 0 ≤ x ∧ x ≤ 1) := by
  refine ⟨?_, fun cs lod => aggregateLevel_eq_of hp ht hs cs lod, ?_⟩
  · intro ag
    constructor
    · show some (aggregateLevel A ag.cellSizeMedium 1) =
        some (aggregateLevel B ag.cellSizeMedium 1)
      rw [aggregateLevel_eq_of hp ht hs]
    · show some (aggregateLevel A ag.cellSizeCoarse 2) =
        some (aggregateLevel B ag.cellSizeCoarse 2)
      rw [aggregateLevel_eq_of hp ht hs]
  · intro d cs lod
    constructor
    · show (dCells d cs).map (fun e => min 1 (Real.logb 10 ((e.2.count : ℝ) + 1) / 3)) = _
      apply List.map_congr_left
      intro e he
      obtain ⟨k, c⟩ := e
      rw [(mem_dCells d cs he).2]
    · intro x hx
      obtain ⟨e, he, hex⟩ := List.mem_map.mp hx
      have hlog : (0 : ℝ) ≤ Real.logb 10 ((e.2.count : ℝ) + 1) / 3 := by
        have h1 : (0 : ℝ) ≤ Real.logb 10 ((e.2.count : ℝ) + 1) :=
          Real.logb_nonneg (by norm_num) (by
            have : (0 : ℝ) ≤ (e.2.count : ℝ) := Nat.cast_nonneg _
            linarith)
        linarith
      constructor
      · rw [← hex]
        exact le_min zero_le_one hlog
      · rw [← hex]
        exact min_le_left _ _

/-- Point sets for the C9 witness: identical except for the density weight. -/
def dDensHalf : PointSet := ⟨[(0, 0, 0)], [0], [0], [1/2]⟩

def dDensOne : PointSet := ⟨[(0, 0, 0)], [0], [0], [1]⟩

theorem densityAggregator_ignores_density_weights_witness :
    aggregateLevel dDensHalf 1 1 = aggregateLevel dDensOne 1 1 :=
  (densityAggregator_ignores_density_weights dDensHalf dDensOne rfl rfl rfl).2.1 1 1

/-! ### C3: the chunk table built by TimeChunker.build -/

/-- Number of (sorted) times whose target chunk is below c. -/
def cntLt (N : ℕ) (ts : List ℚ) (c : ℕ) : ℕ :=
  (ts.filter (fun t => targetChunkOf N t < (c : ℤ))).length

/-- Number of (sorted) times whose target chunk is at most c. -/
def cntLe (N : ℕ) (ts : List ℚ) (c : ℕ) : ℕ :=
  (ts.filter (fun t => targetChunkOf N t ≤ (c : ℤ))).length

theorem filter_length_mono {α : Type} (p q : α → Bool) (h : ∀ a, p a → q a) :
    ∀ l : List α, (l.filter p).length ≤ (l.filter q).length := by
  intro l
  induction l with
  | nil => exact le_refl 0
  | cons a t ih =>
      by_cases hp : p a
      · rw [List.filter_cons_of_pos hp, List.filter_cons_of_pos (h a hp)]
        simpa using ih
      · rw [List.filter_cons_of_neg hp]
        by_cases hq : q a
        · rw [List.filter_cons_of_pos hq]
          exact le_trans ih (by simp)
        · rw [List.filter_cons_of_neg hq]
          exact ih

theorem cntLt_le_cntLe (N : ℕ) (ts : List ℚ) (c : ℕ) : cntLt N ts c ≤ cntLe N ts c :=
  filter_length_mono _ _ (fun t ht => by
    simp only [decide_eq_true_eq] at ht ⊢
    exact le_of_lt ht) ts

theorem cntLt_mono (N : ℕ) (ts : List ℚ) {c c' : ℕ} (h : c ≤ c') :
    cntLt N ts c ≤ cntLt N ts c' :=
  filter_length_mono _ _ (fun t ht => by
    simp only [decide_eq_true_eq] at ht ⊢
    exact lt_of_lt_of_le ht (by exact_mod_cast h)) ts

theorem cntLe_eq_cntLt_succ (N : ℕ) (ts : List ℚ) (c : ℕ) :
    cntLe N ts c = cntLt N ts (c + 1) := by
  rw [cntLe, cntLt]
  congr 1
  apply List.filter_congr
  intro t _
  apply decide_eq_decide.mpr
  push_cast
  exact (Int.lt_add_one_iff).symm

theorem targetChunkOf_mono (N : ℕ) (hN : 1 ≤ N) {t t' : ℚ} (h : t ≤ t') :
    targetChunkOf N t ≤ targetChunkOf N t' := by
  have hpos : (0 : ℚ) < (1 : ℚ) / N := by
    have : (0 : ℚ) < (N : ℚ) := by exact_mod_cast hN
    positivity
  exact min_le_min (Int.floor_le_floor ((div_le_div_right hpos).mpr h)) (le_refl _)

theorem targetChunkOf_nonneg (N : ℕ) (hN : 1 ≤ N) {t : ℚ} (ht : 0 ≤ t) :
    0 ≤ targetChunkOf N t := by
  refine le_min (Int.floor_nonneg.mpr ?_) ?_
  · have : (0 : ℚ) ≤ (1 : ℚ) / N := by positivity
    exact div_nonneg ht this
  · have : (1 : ℤ) ≤ (N : ℤ) := by exact_mod_cast hN
    omega

theorem targetChunkOf_le (N : ℕ) (t : ℚ) : targetChunkOf N t ≤ (N : ℤ) - 1 :=
  min_le_right _ _

/-- The chunks appended by one run of the inner while loop. -/
def filledChunks (N chunkStart pos L : ℕ) (target : ℤ) : List Chunk :=
  (List.range (target.toNat - L)).map (fun j =>
    ⟨if j = 0 then chunkStart else pos, pos,
     ((L + j : ℕ) : ℚ) * ((1 : ℚ) / N), (((L + j : ℕ) : ℚ) + 1) * ((1 : ℚ) / N)⟩)

theorem filledChunks_cons (N chunkStart pos L : ℕ) (target : ℤ)
    (h : (L : ℤ) < target) :
    filledChunks N chunkStart pos L target =
      (⟨chunkStart, pos, (L : ℚ) * ((1 : ℚ) / N), ((L : ℚ) + 1) * ((1 : ℚ) / N)⟩ : Chunk) ::
        filledChunks N pos pos (L + 1) target := by
  rw [filledChunks, filledChunks]
  have hr : target.toNat - L = (target.toNat - (L + 1)) + 1 := by omega
  rw [hr, List.range_succ_eq_map, List.map_cons, List.map_map]
  refine List.cons_eq_cons.mpr ⟨by simp, ?_⟩
  apply List.map_congr_left
  intro j _
  simp only [Function.comp]
  have h1 : L + Nat.succ j = L + 1 + j := by omega
  simp [h1]

theorem fillTo_eq_aux (N : ℕ) (target : ℤ) :
    ∀ (n : ℕ) (st : ChunkBuildState), (target - st.chunks.length).toNat = n →
      (st.chunks.length : ℤ) ≤ target →
      fillTo N target st =
        ⟨st.chunks ++ filledChunks N st.chunkStart st.pos st.chunks.length target,
         if (st.chunks.length : ℤ) = target then st.chunkStart else st.pos, st.pos⟩ := by
  intro n
  induction n with
  | zero =>
      intro st h0 hle
      have heq : (st.chunks.length : ℤ) = target := by omega
      rw [fillTo, dif_neg (by omega), if_pos heq]
      have hfc : filledChunks N st.chunkStart st.pos st.chunks.length target = [] := by
        rw [filledChunks]
        have : target.toNat - st.chunks.length = 0 := by omega
        rw [this]
        rfl
      rw [hfc, List.append_nil]
  | succ n ih =>
      intro st h0 hle
      have hlt : (st.chunks.length : ℤ) < target := by omega
      rw [fillTo, dif_pos hlt]
      have hrec := ih
        { chunks := st.chunks ++
            [⟨st.chunkStart, st.pos, (st.chunks.length : ℚ) * ((1 : ℚ) / N),
              ((st.chunks.length : ℚ) + 1) * ((1 : ℚ) / N)⟩]
          chunkStart := st.pos
          pos := st.pos }
        (by simp only [List.length_append, List.length_cons, List.length_nil]; omega)
        (by simp only [List.length_append, List.length_cons, List.length_nil]
            push_cast
            omega)
      rw [hrec]
      simp only [List.length_append, List.length_cons, List.length_nil, Nat.zero_add]
      rw [List.append_assoc, List.singleton_append,
        filledChunks_cons N st.chunkStart st.pos st.chunks.length target hlt,
        ite_self, if_neg (show ¬ ((st.chunks.length : ℤ) = target) from by omega)]

theorem fillTo_eq (N : ℕ) (target : ℤ) (st : ChunkBuildState)
    (hle : (st.chunks.length : ℤ) ≤ target) :
    fillTo N target st =
      ⟨st.chunks ++ filledChunks N st.chunkStart st.pos st.chunks.length target,
       if (st.chunks.length : ℤ) = target then st.chunkStart else st.pos, st.pos⟩ :=
  fillTo_eq_aux N target _ st rfl hle

/-- The chunks appended by the trailing while loop (chunkStart never advances). -/
def remChunks (N cnt chunkStart L : ℕ) : List Chunk :=
  (List.range (N - L)).map (fun j =>
    ⟨chunkStart, cnt, ((L + j : ℕ) : ℚ) * ((1 : ℚ) / N),
     (((L + j : ℕ) : ℚ) + 1) * ((1 : ℚ) / N)⟩)

theorem remChunks_cons (N cnt chunkStart L : ℕ) (h : L < N) :
    remChunks N cnt chunkStart L =
      (⟨chunkStart, cnt, (L : ℚ) * ((1 : ℚ) / N), ((L : ℚ) + 1) * ((1 : ℚ) / N)⟩ : Chunk) ::
        remChunks N cnt chunkStart (L + 1) := by
  rw [remChunks, remChunks]
  have hr : N - L = (N - (L + 1)) + 1 := by omega
  rw [hr, List.range_succ_eq_map, List.map_cons, List.map_map]
  refine List.cons_eq_cons.mpr ⟨by simp, ?_⟩
  apply List.map_congr_left
  intro j _
  simp only [Function.comp]
  have h1 : L + Nat.succ j = L + 1 + j := by omega
  simp [h1]

theorem fillRemaining_eq_aux (N cnt : ℕ) :
    ∀ (n : ℕ) (st : ChunkBuildState), N - st.chunks.length = n →
      st.chunks.length ≤ N →
      fillRemaining N cnt st =
        ⟨st.chunks ++ remChunks N cnt st.chunkStart st.chunks.length,
         st.chunkStart, st.pos⟩ := by
  intro n
  induction n with
  | zero =>
      intro st h0 hle
      have heq : st.chunks.length = N := by omega
      rw [fillRemaining, dif_neg (by omega)]
      have hfc : remChunks N cnt st.chunkStart st.chunks.length = [] := by
        rw [remChunks]
        have : N - st.chunks.length = 0 := by omega
        rw [this]
        rfl
      rw [hfc, List.append_nil]
  | succ n ih =>
      intro st h0 hle
      have hlt : st.chunks.length < N := by omega
      rw [fillRemaining, dif_pos hlt]
      have hrec := ih
        { st with chunks := st.chunks ++
            [⟨st.chunkStart, cnt, (st.chunks.length : ℚ) * ((1 : ℚ) / N),
              ((st.chunks.length : ℚ) + 1) * ((1 : ℚ) / N)⟩] }
        (by simp only [List.length_append, List.length_cons, List.length_nil]; omega)
        (by simp only [List.length_append, List.length_cons, List.length_nil]; omega)
      rw [hrec]
      simp only [List.length_append, List.length_cons, List.length_nil, Nat.zero_add]
      rw [List.append_assoc, List.singleton_append,
        remChunks_cons N cnt st.chunkStart st.chunks.length hlt]

theorem fillRemaining_eq (N cnt : ℕ) (st : ChunkBuildState)
    (hle : st.chunks.length ≤ N) :
    fillRemaining N cnt st =
      ⟨st.chunks ++ remChunks N cnt st.chunkStart st.chunks.length,
       st.chunkStart, st.pos⟩ :=
  fillRemaining_eq_aux N cnt _ st rfl hle

/-- The target chunk of the last processed point (0 before any point). -/
def lastTargetOf (N : ℕ) (sp : List (ℕ × ℚ)) : ℤ :=
  match sp.getLast? with
  | none => 0
  | some p => targetChunkOf N p.2

/-- The intended chunk table contents: chunk c spans the sorted positions of
the points with target chunk exactly c. -/
def chunkSpec (N : ℕ) (ts : List ℚ) (L : ℕ) : List Chunk :=
  (List.range L).map (fun c =>
    ⟨cntLt N ts c, cntLe N ts c, (c : ℚ) * ((1 : ℚ) / N), ((c : ℚ) + 1) * ((1 : ℚ) / N)⟩)

theorem chunkSpec_length (N : ℕ) (ts : List ℚ) (L : ℕ) :
    (chunkSpec N ts L).length = L := by
  rw [chunkSpec, List.length_map, List.length_range]

theorem filter_length_all {α : Type} (q : α → Bool) (l : List α) (h : ∀ a ∈ l, q a) :
    (l.filter q).length = l.length := by
  rw [List.filter_eq_self.mpr h]

theorem cntLt_append_one (N : ℕ) (ts : List ℚ) (t' : ℚ) (c : ℕ) :
    cntLt N (ts ++ [t']) c =
      cntLt N ts c + (if targetChunkOf N t' < (c : ℤ) then 1 else 0) := by
  rw [cntLt, cntLt, List.filter_append]
  by_cases h : targetChunkOf N t' < (c : ℤ) <;> simp [List.filter_cons, h]

theorem cntLe_append_one (N : ℕ) (ts : List ℚ) (t' : ℚ) (c : ℕ) :
    cntLe N (ts ++ [t']) c =
      cntLe N ts c + (if targetChunkOf N t' ≤ (c : ℤ) then 1 else 0) := by
  rw [cntLe, cntLe, List.filter_append]
  by_cases h : targetChunkOf N t' ≤ (c : ℤ) <;> simp [List.filter_cons, h]

theorem cntLt_all (N : ℕ) (ts : List ℚ) (c : ℕ)
    (h : ∀ t ∈ ts, targetChunkOf N t < (c : ℤ)) : cntLt N ts c = ts.length :=
  filter_length_all _ _ (fun t ht => decide_eq_true (h t ht))

theorem cntLe_all (N : ℕ) (ts : List ℚ) (c : ℕ)
    (h : ∀ t ∈ ts, targetChunkOf N t ≤ (c : ℤ)) : cntLe N ts c = ts.length :=
  filter_length_all _ _ (fun t ht => decide_eq_true (h t ht))

theorem cntLt_append_last (N : ℕ) (ts : List ℚ) (t' : ℚ) (L L' : ℕ)
    (hLL' : L ≤ L') (hbound : ∀ t ∈ ts, targetChunkOf N t ≤ (L : ℤ))
    (hT' : targetChunkOf N t' = (L' : ℤ)) :
    cntLt N (ts ++ [t']) L' = if L = L' then cntLt N ts L else ts.length := by
  rw [cntLt_append_one, hT', if_neg (lt_irrefl _), Nat.add_zero]
  by_cases h : L = L'
  · rw [if_pos h, h]
  · rw [if_neg h]
    exact cntLt_all N ts L' (fun t ht =>
      lt_of_le_of_lt (hbound t ht) (by exact_mod_cast lt_of_le_of_ne hLL' h))

theorem chunkSpec_append_last (N : ℕ) (ts : List ℚ) (t' : ℚ) (L L' : ℕ)
    (hLL' : L ≤ L') (hbound : ∀ t ∈ ts, targetChunkOf N t ≤ (L : ℤ))
    (hT' : targetChunkOf N t' = (L' : ℤ)) :
    chunkSpec N (ts ++ [t']) L' =
      chunkSpec N ts L ++ filledChunks N (cntLt N ts L) ts.length L ((L' : ℤ)) := by
  rw [chunkSpec, show L' = L + (L' - L) from (by omega), List.range_add,
    List.map_append, List.map_map]
  congr 1
  · rw [chunkSpec]
    apply List.map_congr_left
    intro c hc
    have hcL : c < L := List.mem_range.mp hc
    have h1 : cntLt N (ts ++ [t']) c = cntLt N ts c := by
      rw [cntLt_append_one, hT', if_neg (by exact_mod_cast by omega), Nat.add_zero]
    have h2 : cntLe N (ts ++ [t']) c = cntLe N ts c := by
      rw [cntLe_append_one, hT', if_neg (by exact_mod_cast by omega), Nat.add_zero]
    rw [h1, h2]
  · rw [filledChunks, Int.toNat_natCast, Nat.add_sub_cancel_left]
    apply List.map_congr_left
    intro j hj
    have hjL : j < L' - L := List.mem_range.mp hj
    simp only [Function.comp]
    have h1 : cntLt N (ts ++ [t']) (L + j) =
        if j = 0 then cntLt N ts L else ts.length := by
      rw [cntLt_append_one, hT', if_neg (by push_cast; omega), Nat.add_zero]
      by_cases hj0 : j = 0
      · rw [if_pos hj0, hj0, Nat.add_zero]
      · rw [if_neg hj0]
        exact cntLt_all N ts (L + j) (fun t ht =>
          lt_of_le_of_lt (hbound t ht) (by push_cast; omega))
    have h2 : cntLe N (ts ++ [t']) (L + j) = ts.length := by
      rw [cntLe_append_one, hT', if_neg (by push_cast; omega), Nat.add_zero]
      exact cntLe_all N ts (L + j) (fun t ht =>
        le_trans (hbound t ht) (by push_cast; omega))
    rw [h1, h2]

/-- Characterization of the chunk-boundary loop of build over a time-sorted
pair list: the chunks built so far are exactly chunkSpec up to the last
point's target chunk, and chunkStart is that chunk's eventual startIndex. -/
theorem chunkFold_eq (N : ℕ) (hN : 1 ≤ N) :
    ∀ sp : List (ℕ × ℚ), List.Pairwise (fun a b : ℕ × ℚ => a.2 ≤ b.2) sp →
      (∀ p ∈ sp, (0 : ℚ) ≤ p.2) →
      0 ≤ lastTargetOf N sp ∧
      (∀ p ∈ sp, targetChunkOf N p.2 ≤ lastTargetOf N sp) ∧
      sp.foldl (chunkStep N) ⟨[], 0, 0⟩ =
        ⟨chunkSpec N (sp.map Prod.snd) (lastTargetOf N sp).toNat,
         cntLt N (sp.map Prod.snd) (lastTargetOf N sp).toNat, sp.length⟩ := by
  intro sp
  induction sp using List.reverseRecOn with
  | nil =>
      intro _ _
      exact ⟨le_refl 0, by simp, rfl⟩
  | append_singleton l p ih =>
      intro hsort hpos
      rw [List.pairwise_append] at hsort
      have hlp : ∀ a ∈ l, a.2 ≤ p.2 :=
        fun a ha => hsort.2.2 a ha p (List.mem_singleton_self p)
      obtain ⟨ih0, ihbound, ihfold⟩ := ih hsort.1
        (fun q hq => hpos q (List.mem_append_left _ hq))
      have hp0 : (0 : ℚ) ≤ p.2 := hpos p (List.mem_append_right _ (List.mem_singleton_self p))
      have hT'0 : 0 ≤ targetChunkOf N p.2 := targetChunkOf_nonneg N hN hp0
      have hlast' : lastTargetOf N (l ++ [p]) = targetChunkOf N p.2 := by
        rw [lastTargetOf, List.getLast?_concat]
      have hTT' : lastTargetOf N l ≤ targetChunkOf N p.2 := by
        cases hgl : l.getLast? with
        | none =>
            rw [lastTargetOf, hgl]
            exact hT'0
        | some q =>
            rw [lastTargetOf, hgl]
            exact targetChunkOf_mono N hN (hlp q (List.mem_of_getLast?_eq_some hgl))
      have hboundl : ∀ t ∈ l.map Prod.snd,
          targetChunkOf N t ≤ ((lastTargetOf N l).toNat : ℤ) := by
        intro t ht
        obtain ⟨q, hq, hqt⟩ := List.mem_map.mp ht
        rw [Int.toNat_of_nonneg ih0, ← hqt]
        exact ihbound q hq
      refine ⟨hlast' ▸ hT'0, ?_, ?_⟩
      · intro q hq
        rw [hlast']
        rcases List.mem_append.mp hq with h | h
        · exact le_trans (ihbound q h) hTT'
        · rw [List.mem_singleton.mp h]
      · rw [List.foldl_append, ihfold, List.foldl_cons, List.foldl_nil, chunkStep]
        have hlen : (chunkSpec N (l.map Prod.snd) (lastTargetOf N l).toNat).length =
            (lastTargetOf N l).toNat := chunkSpec_length N _ _
        have hle : (((chunkSpec N (l.map Prod.snd)
            (lastTargetOf N l).toNat).length : ℕ) : ℤ) ≤ targetChunkOf N p.2 := by
          rw [hlen, Int.toNat_of_nonneg ih0]
          exact hTT'
        rw [fillTo_eq N (targetChunkOf N p.2) _ hle]
        simp only [hlen]
        have hT'nat : targetChunkOf N p.2 = (((targetChunkOf N p.2).toNat : ℕ) : ℤ) :=
          (Int.toNat_of_nonneg hT'0).symm
        have hLL' : (lastTargetOf N l).toNat ≤ (targetChunkOf N p.2).toNat := by omega
        have hchunks := chunkSpec_append_last N (l.map Prod.snd) p.2
          (lastTargetOf N l).toNat (targetChunkOf N p.2).toNat hLL' hboundl
          (by rw [← hT'nat])
        have hmapsnd : (l ++ [p]).map Prod.snd = l.map Prod.snd ++ [p.2] := by
          rw [List.map_append]
          rfl
        have hcnt := cntLt_append_last N (l.map Prod.snd) p.2
          (lastTargetOf N l).toNat (targetChunkOf N p.2).toNat hLL' hboundl
          (by rw [← hT'nat])
        rw [hlast', hmapsnd, hchunks, hcnt]
        have hlenmap : (l.map Prod.snd).length = l.length := List.length_map _ _
        have hlenapp : (l ++ [p]).length = l.length + 1 := by
          rw [List.length_append, List.length_cons, List.length_nil]
        have hcond : ((((lastTargetOf N l).toNat : ℕ) : ℤ) = targetChunkOf N p.2) ↔
            ((lastTargetOf N l).toNat = (targetChunkOf N p.2).toNat) := by omega
        by_cases hcase : (lastTargetOf N l).toNat = (targetChunkOf N p.2).toNat
        · rw [if_pos (hcond.mpr hcase), if_pos hcase, hlenmap, hlenapp, ← hT'nat]
        · rw [if_neg (fun h => hcase (hcond.mp h)), if_neg hcase, hlenmap, hlenapp,
            ← hT'nat]

theorem pairLe_to_le {a b : ℕ × ℚ} (h : pairLe a b = true) : a.2 ≤ b.2 := by
  simp only [pairLe, Bool.or_eq_true, Bool.and_eq_true, decide_eq_true_eq] at h
  rcases h with h | ⟨h, -⟩
  · exact le_of_lt h
  · exact le_of_eq h

theorem sortedPairs_length (d : PointSet) : (sortedPairs d).length = d.count := by
  rw [sortedPairs, List.length_mergeSort, indexedPairs, List.length_map,
    List.length_range]

theorem sortedPairs_sorted_snd (d : PointSet) :
    List.Pairwise (fun a b : ℕ × ℚ => a.2 ≤ b.2) (sortedPairs d) :=
  (sortedPairs_pairwise d).imp pairLe_to_le

theorem sortedPairs_pos (d : PointSet) (hv : ValidPointSet d) :
    ∀ p ∈ sortedPairs d, (0 : ℚ) ≤ p.2 := by
  intro p hp
  obtain ⟨hlt, hte⟩ := mem_sortedPairs d hp
  rw [hte]
  exact (hv.2.2.2.1 p.1 hlt).1

theorem lastTargetOf_le (N : ℕ) (hN : 1 ≤ N) (sp : List (ℕ × ℚ)) :
    lastTargetOf N sp ≤ (N : ℤ) - 1 := by
  cases hgl : sp.getLast? with
  | none =>
      rw [lastTargetOf, hgl]
      show (0 : ℤ) ≤ (N : ℤ) - 1
      have : (1 : ℤ) ≤ (N : ℤ) := by exact_mod_cast hN
      omega
  | some q =>
      rw [lastTargetOf, hgl]
      show targetChunkOf N q.2 ≤ (N : ℤ) - 1
      exact targetChunkOf_le N q.2

/-- The full chunk table of a fresh build, provided the input is empty or some
point lands in the last chunk: chunk c is [cntLt c, cntLe c) with the fixed
time window. -/
theorem timeChunker_build_chunks (N : ℕ) (hN : 1 ≤ N) (d : PointSet)
    (hv : ValidPointSet d)
    (hlast : d.count = 0 ∨ ∃ i < d.count, targetChunkOf N (d.time i) = (N : ℤ) - 1) :
    ((TimeChunker.mkChunker N).build d).chunks =
      (List.range N).map (fun c =>
        ⟨cntLt N ((sortedPairs d).map Prod.snd) c,
         cntLe N ((sortedPairs d).map Prod.snd) c,
         (c : ℚ) * ((1 : ℚ) / N), ((c : ℚ) + 1) * ((1 : ℚ) / N)⟩) := by
  obtain ⟨h0, hbound, hfold⟩ :=
    chunkFold_eq N hN (sortedPairs d) (sortedPairs_sorted_snd d) (sortedPairs_pos d hv)
  have hbuild : ((TimeChunker.mkChunker N).build d).chunks =
      (fillRemaining N d.count
        ((sortedPairs d).foldl (chunkStep N) ⟨[], 0, 0⟩)).chunks := rfl
  have hLle : (lastTargetOf N (sortedPairs d)).toNat ≤ N := by
    have := lastTargetOf_le N hN (sortedPairs d)
    omega
  rw [hbuild, hfold, fillRemaining_eq N d.count _ (by rw [chunkSpec_length]; exact hLle)]
  simp only [chunkSpec_length]
  rcases hlast with hzero | ⟨i, hi, hti⟩
  · have hsp : sortedPairs d = [] := by
      have := sortedPairs_length d
      rw [hzero] at this
      exact List.length_eq_zero.mp this
    rw [hsp]
    have hlt0 : lastTargetOf N ([] : List (ℕ × ℚ)) = 0 := rfl
    rw [hlt0]
    rw [show ((0 : ℤ).toNat) = 0 from rfl]
    rw [show chunkSpec N ([].map Prod.snd) 0 = [] from rfl, List.nil_append]
    rw [remChunks, Nat.sub_zero]
    apply List.map_congr_left
    intro j hj
    have hcnt : cntLt N (([] : List (ℕ × ℚ)).map Prod.snd) 0 = 0 := rfl
    rw [hcnt]
    have h1 : cntLt N (([] : List (ℕ × ℚ)).map Prod.snd) j = 0 := rfl
    have h2 : cntLe N (([] : List (ℕ × ℚ)).map Prod.snd) j = 0 := rfl
    rw [h1, h2, hzero]
    simp
  · have hlastval : lastTargetOf N (sortedPairs d) = (N : ℤ) - 1 := by
      refine le_antisymm (lastTargetOf_le N hN (sortedPairs d)) ?_
      have hmem : (i, d.time i) ∈ sortedPairs d := by
        apply (sortedPairs_perm d).mem_iff.mpr
        rw [indexedPairs]
        exact List.mem_map.mpr ⟨i, List.mem_range.mpr hi, rfl⟩
      have := hbound (i, d.time i) hmem
      rw [hti] at this
      exact this
    have hLnat : (lastTargetOf N (sortedPairs d)).toNat = N - 1 := by
      rw [hlastval]
      omega
    rw [hLnat]
    have hrange : List.range N = List.range (N - 1) ++ [N - 1] := by
      have : N = (N - 1) + 1 := by omega
      rw [show List.range N = List.range ((N - 1) + 1) from by rw [← this],
        List.range_succ]
    rw [hrange, List.map_append]
    congr 1
    rw [remChunks, show N - (N - 1) = 1 from by omega]
    rw [show List.range 1 = [0] from rfl]
    simp only [List.map_cons, List.map_nil, List.cons.injEq, and_true]
    have hcntle : cntLe N ((sortedPairs d).map Prod.snd) (N - 1) = d.count := by
      rw [cntLe_all, List.length_map, sortedPairs_length]
      intro t _
      have := targetChunkOf_le N t
      have h1 : ((N - 1 : ℕ) : ℤ) = (N : ℤ) - 1 := by omega
      rw [h1]
      exact this
    rw [hcntle]
    simp

/-- The chunk table of a built TimeChunker with out-of-range access defaulted. -/
def chunkAt (N : ℕ) (d : PointSet) (c : ℕ) : Chunk :=
  ((TimeChunker.mkChunker N).build d).chunks.getD c ⟨0, 0, 0, 0⟩

theorem chunkAt_eq (N : ℕ) (hN : 1 ≤ N) (d : PointSet) (hv : ValidPointSet d)
    (hlast : d.count = 0 ∨ ∃ i < d.count, targetChunkOf N (d.time i) = (N : ℤ) - 1)
    (c : ℕ) (hc : c < N) :
    chunkAt N d c =
      ⟨cntLt N ((sortedPairs d).map Prod.snd) c,
       cntLe N ((sortedPairs d).map Prod.snd) c,
       (c : ℚ) * ((1 : ℚ) / N), ((c : ℚ) + 1) * ((1 : ℚ) / N)⟩ := by
  rw [chunkAt, timeChunker_build_chunks N hN d hv hlast]
  have hlen : c < ((List.range N).map (fun c =>
      (⟨cntLt N ((sortedPairs d).map Prod.snd) c,
        cntLe N ((sortedPairs d).map Prod.snd) c,
        (c : ℚ) * ((1 : ℚ) / N), ((c : ℚ) + 1) * ((1 : ℚ) / N)⟩ : Chunk))).length := by
    rw [List.length_map, List.length_range]
    exact hc
  rw [List.getD_eq_getElem _ _ hlen, List.getElem_map]
  congr 1 <;> rw [List.getElem_range]

theorem target_ts_nonneg (N : ℕ) (hN : 1 ≤ N) (d : PointSet) (hv : ValidPointSet d) :
    ∀ t ∈ (sortedPairs d).map Prod.snd, 0 ≤ targetChunkOf N t := by
  intro t ht
  obtain ⟨p, hp, hpt⟩ := List.mem_map.mp ht
  rw [← hpt]
  exact targetChunkOf_nonneg N hN (sortedPairs_pos d hv p hp)

theorem cntLt_zero (N : ℕ) (ts : List ℚ)
    (h : ∀ t ∈ ts, 0 ≤ targetChunkOf N t) : cntLt N ts 0 = 0 := by
  rw [cntLt]
  have : ts.filter (fun t => targetChunkOf N t < ((0 : ℕ) : ℤ)) = [] := by
    rw [List.filter_eq_nil_iff]
    intro t ht
    simp only [decide_eq_true_eq, Nat.cast_zero]
    exact not_lt.mpr (h t ht)
  rw [this]
  rfl

theorem cntLt_full (N : ℕ) (d : PointSet) (c : ℕ) (hc : N ≤ c) :
    cntLt N ((sortedPairs d).map Prod.snd) c = d.count := by
  rw [cntLt_all, List.length_map, sortedPairs_length]
  intro t _
  have h1 := targetChunkOf_le N t
  have h2 : (N : ℤ) ≤ (c : ℤ) := by exact_mod_cast hc
  omega

/-- C3 (corrected): provided the input is empty or some point has the last
target chunk index chunkCount-1 (in particular whenever a point has time
close enough to 1), the chunk table after build partitions the sorted
permutation contiguously: chunk 0 starts at 0; the last chunk ends at count;
each chunk's endIndex is the next chunk's startIndex; startIndex ≤ endIndex;
a chunk containing no points is zero-length (anchored at the next populated
boundary); and every sorted index is covered by exactly one chunk.  Without
that proviso the table violates the partition invariant: every chunk after
the last populated one repeats that chunk's whole range (see the
counterexample). -/
theorem timeChunker_chunk_partition (N : ℕ) (d : PointSet) (hN : 1 ≤ N)
    (hv : ValidPointSet d)
    (hlast : d.count = 0 ∨ ∃ i < d.count, targetChunkOf N (d.time i) = (N : ℤ) - 1) :
    (((TimeChunker.mkChunker N).build d).chunks.length = N) ∧
    ((chunkAt N d 0).startIndex = 0) ∧
    ((chunkAt N d (N - 1)).endIndex = d.count) ∧
    (∀ c, c + 1 < N → (chunkAt N d c).endIndex = (chunkAt N d (c + 1)).startIndex) ∧
    (∀ c < N, (chunkAt N d c).startIndex ≤ (chunkAt N d c).endIndex) ∧
    (∀ c < N, (∀ i < d.count, targetChunkOf N (d.time i) ≠ (c : ℤ)) →
      (chunkAt N d c).startIndex = (chunkAt N d c).endIndex) ∧
    (∀ j < d.count, ∃! c, c < N ∧
      (chunkAt N d c).startIndex ≤ j ∧ j < (chunkAt N d c).endIndex) := by
  have hts := target_ts_nonneg N hN d hv
  refine ⟨?_, ?_, ?_, ?_, ?_, ?_, ?_⟩
  · rw [timeChunker_build_chunks N hN d hv hlast, List.length_map, List.length_range]
  · rw [chunkAt_eq N hN d hv hlast 0 (by omega)]
    exact cntLt_zero N _ hts
  · rw [chunkAt_eq N hN d hv hlast (N - 1) (by omega)]
    show cntLe N ((sortedPairs d).map Prod.snd) (N - 1) = d.count
    rw [cntLe_eq_cntLt_succ, show (N - 1) + 1 = N from by omega]
    exact cntLt_full N d N (le_refl N)
  · intro c hc
    rw [chunkAt_eq N hN d hv hlast c (by omega),
      chunkAt_eq N hN d hv hlast (c + 1) hc]
    exact cntLe_eq_cntLt_succ N _ c
  · intro c hc
    rw [chunkAt_eq N hN d hv hlast c hc]
    exact cntLt_le_cntLe N _ c
  · intro c hc hnone
    rw [chunkAt_eq N hN d hv hlast c hc]
    show cntLt N ((sortedPairs d).map Prod.snd) c =
      cntLe N ((sortedPairs d).map Prod.snd) c
    rw [cntLt, cntLe]
    congr 1
    apply List.filter_congr
    intro t ht
    apply decide_eq_decide.mpr
    have hne : targetChunkOf N t ≠ (c : ℤ) := by
      obtain ⟨p, hp, hpt⟩ := List.mem_map.mp ht
      obtain ⟨hlt, hte⟩ := mem_sortedPairs d hp
      rw [← hpt, hte]
      exact hnone p.1 hlt
    omega
  · intro j hj
    have hP : j < cntLt N ((sortedPairs d).map Prod.snd) ((N - 1) + 1) := by
      rw [show (N - 1) + 1 = N from by omega, cntLt_full N d N (le_refl N)]
      exact hj
    have hex : ∃ c, j < cntLt N ((sortedPairs d).map Prod.snd) (c + 1) := ⟨N - 1, hP⟩
    refine ⟨Nat.find hex, ⟨?_, ?_, ?_⟩, ?_⟩
    · have := Nat.find_min' hex hP
      omega
    · rw [chunkAt_eq N hN d hv hlast (Nat.find hex)
        (by have := Nat.find_min' hex hP; omega)]
      show cntLt N ((sortedPairs d).map Prod.snd) (Nat.find hex) ≤ j
      cases hfind : Nat.find hex with
      | zero => rw [cntLt_zero N _ hts]; omega
      | succ m =>
          have hm : ¬ (j < cntLt N ((sortedPairs d).map Prod.snd) (m + 1)) :=
            Nat.find_min hex (by omega)
          omega
    · rw [chunkAt_eq N hN d hv hlast (Nat.find hex)
        (by have := Nat.find_min' hex hP; omega)]
      show j < cntLe N ((sortedPairs d).map Prod.snd) (Nat.find hex)
      rw [cntLe_eq_cntLt_succ]
      exact Nat.find_spec hex
    · intro c' hc'
      obtain ⟨hc'N, hstart, hend⟩ := hc'
      rw [chunkAt_eq N hN d hv hlast c' hc'N] at hstart hend
      dsimp only at hstart hend
      have hPc' : j < cntLt N ((sortedPairs d).map Prod.snd) (c' + 1) := by
        have : cntLe N ((sortedPairs d).map Prod.snd) c' =
            cntLt N ((sortedPairs d).map Prod.snd) (c' + 1) := cntLe_eq_cntLt_succ N _ c'
        rw [← this]
        exact hend
      have hle : Nat.find hex ≤ c' := Nat.find_min' hex hPc'
      by_contra hne
      have hlt : Nat.find hex < c' := lt_of_le_of_ne hle (fun h => hne h.symm)
      have hmono : cntLt N ((sortedPairs d).map Prod.snd) (Nat.find hex + 1) ≤
          cntLt N ((sortedPairs d).map Prod.snd) c' := cntLt_mono N _ (by omega)
      have := Nat.find_spec hex
      omega

/-- C3 counterexample: one point with time 0 and chunkCount 2.  The point's
chunk is 0, so chunk 1 holds no points; yet build gives both chunks the range
[0, 1), breaking contiguity (chunk 0's endIndex is 1, chunk 1's startIndex is
0) and covering sorted index 0 twice; the empty trailing chunk is not
zero-length. -/
theorem timeChunker_trailing_chunk_overlap :
    (((TimeChunker.mkChunker 2).build dOnePoint).chunks.map
        (fun c => (c.startIndex, c.endIndex))) = [(0, 1), (0, 1)] ∧
      ¬ ((chunkAt 2 dOnePoint 0).endIndex = (chunkAt 2 dOnePoint 1).startIndex) := by
  have hsp : sortedPairs dOnePoint = [(0, 0)] := by
    rw [sortedPairs, indexedPairs]
    norm_num [dOnePoint, PointSet.count, PointSet.time, List.range_succ]
  have hbuild : ((TimeChunker.mkChunker 2).build dOnePoint).chunks =
      (fillRemaining 2 dOnePoint.count
        ((sortedPairs dOnePoint).foldl (chunkStep 2) ⟨[], 0, 0⟩)).chunks := rfl
  have hcount : dOnePoint.count = 1 := rfl
  have htgt : targetChunkOf 2 0 = 0 := by
    norm_num [targetChunkOf]
  have hfold : (sortedPairs dOnePoint).foldl (chunkStep 2) ⟨[], 0, 0⟩ =
      ⟨[], 0, 1⟩ := by
    rw [hsp, List.foldl_cons, List.foldl_nil, chunkStep]
    simp only [htgt]
    rw [fillTo, dif_neg (by norm_num)]
  have hchunks : ((TimeChunker.mkChunker 2).build dOnePoint).chunks =
      [⟨0, 1, 0 * ((1 : ℚ) / 2), (0 + 1) * ((1 : ℚ) / 2)⟩,
       ⟨0, 1, 1 * ((1 : ℚ) / 2), (1 + 1) * ((1 : ℚ) / 2)⟩] := by
    rw [hbuild, hfold, hcount]
    rw [fillRemaining, dif_pos (by norm_num)]
    rw [fillRemaining, dif_pos (by norm_num)]
    rw [fillRemaining, dif_neg (by norm_num)]
    norm_num
  constructor
  · rw [hchunks]
    rfl
  · rw [chunkAt, chunkAt, hchunks]
    norm_num

/-- A single point whose time lies in the last chunk, for the C3 witness. -/
def dTimeOne : PointSet := ⟨[(0, 0, 0)], [1], [0], [0]⟩

theorem dTimeOne_valid : ValidPointSet dTimeOne := by
  refine ⟨rfl, rfl, rfl, ?_, ?_⟩ <;> intro i hi <;>
    (have hi0 : i = 0 := by
      simpa [dTimeOne, PointSet.count, Nat.lt_one_iff] using hi) <;> subst hi0
  · exact ⟨zero_le_one, le_refl 1⟩
  · norm_num [dTimeOne, PointSet.sid]

theorem dTimeOne_last_target : targetChunkOf 2 (dTimeOne.time 0) = (2 : ℤ) - 1 := by
  norm_num [targetChunkOf, dTimeOne, PointSet.time]

theorem timeChunker_chunk_partition_witness :
    ((TimeChunker.mkChunker 2).build dTimeOne).chunks.length = 2 :=
  (timeChunker_chunk_partition 2 dTimeOne (by norm_num) dTimeOne_valid
    (Or.inr ⟨0, Nat.zero_lt_one, dTimeOne_last_target⟩)).1

/-! ### C6: a sphere covering the whole grid aggregates every populated cell -/

/-- Axis-aligned box membership. -/
def inBox (mn mx q : ℚ × ℚ × ℚ) : Prop :=
  mn.1 ≤ q.1 ∧ q.1 ≤ mx.1 ∧ mn.2.1 ≤ q.2.1 ∧ q.2.1 ≤ mx.2.1 ∧
    mn.2.2 ≤ q.2.2 ∧ q.2.2 ≤ mx.2.2

theorem foldl_min_le {l : List ℚ} {a : ℚ} :
    l.foldl min a ≤ a ∧ ∀ x ∈ l, l.foldl min a ≤ x := by
  induction l generalizing a with
  | nil => exact ⟨le_refl a, by simp⟩
  | cons y t ih =>
      rw [List.foldl_cons]
      refine ⟨le_trans (ih (a := min a y)).1 (min_le_left a y), ?_⟩
      intro x hx
      rcases List.mem_cons.mp hx with h | h
      · subst h
        exact le_trans (ih (a := min a x)).1 (min_le_right a x)
      · exact (ih (a := min a y)).2 x h

theorem le_foldl_max {l : List ℚ} {a : ℚ} :
    a ≤ l.foldl max a ∧ ∀ x ∈ l, x ≤ l.foldl max a := by
  induction l generalizing a with
  | nil => exact ⟨le_refl a, by simp⟩
  | cons y t ih =>
      rw [List.foldl_cons]
      refine ⟨le_trans (le_max_left a y) (ih (a := max a y)).1, ?_⟩
      intro x hx
      rcases List.mem_cons.mp hx with h | h
      · subst h
        exact le_trans (le_max_right a x) (ih (a := max a x)).1
      · exact (ih (a := max a y)).2 x h

theorem foldl_minTriple_comp (l : List (ℚ × ℚ × ℚ)) (p : ℚ × ℚ × ℚ) :
    (l.foldl (fun m q => (min m.1 q.1, min m.2.1 q.2.1, min m.2.2 q.2.2)) p).1 =
        (l.map (fun q => q.1)).foldl min p.1 ∧
      (l.foldl (fun m q => (min m.1 q.1, min m.2.1 q.2.1, min m.2.2 q.2.2)) p).2.1 =
        (l.map (fun q => q.2.1)).foldl min p.2.1 ∧
      (l.foldl (fun m q => (min m.1 q.1, min m.2.1 q.2.1, min m.2.2 q.2.2)) p).2.2 =
        (l.map (fun q => q.2.2)).foldl min p.2.2 := by
  induction l generalizing p with
  | nil => exact ⟨rfl, rfl, rfl⟩
  | cons y t ih => exact ih (min p.1 y.1, min p.2.1 y.2.1, min p.2.2 y.2.2)

theorem foldl_maxTriple_comp (l : List (ℚ × ℚ × ℚ)) (p : ℚ × ℚ × ℚ) :
    (l.foldl (fun m q => (max m.1 q.1, max m.2.1 q.2.1, max m.2.2 q.2.2)) p).1 =
        (l.map (fun q => q.1)).foldl max p.1 ∧
      (l.foldl (fun m q => (max m.1 q.1, max m.2.1 q.2.1, max m.2.2 q.2.2)) p).2.1 =
        (l.map (fun q => q.2.1)).foldl max p.2.1 ∧
      (l.foldl (fun m q => (max m.1 q.1, max m.2.1 q.2.1, max m.2.2 q.2.2)) p).2.2 =
        (l.map (fun q => q.2.2)).foldl max p.2.2 := by
  induction l generalizing p with
  | nil => exact ⟨rfl, rfl, rfl⟩
  | cons y t ih => exact ih (max p.1 y.1, max p.2.1 y.2.1, max p.2.2 y.2.2)

/-- Every position of the point set lies inside the (padded) grid box. -/
theorem pos_in_bounds (cs : ℚ) (d : PointSet) (hcs : 0 < cs) :
    ∀ i < d.count, inBox (computeBounds cs d).1 (computeBounds cs d).2 (d.pos i) := by
  intro i hi
  have hpad : 0 ≤ cs * (1 / 2) := by positivity
  have hmem : d.pos i ∈ d.positions := by
    rw [PointSet.pos, List.getD_eq_getElem _ _ hi]
    exact List.getElem_mem hi
  rcases hpos : d.positions with _ | ⟨p, rest⟩
  · rw [PointSet.count, hpos] at hi
    simp at hi
  · rw [hpos] at hmem
    rw [computeBounds, hpos]
    simp only [inBox]
    obtain ⟨hm1, hm2, hm3⟩ := foldl_minTriple_comp rest p
    obtain ⟨hx1, hx2, hx3⟩ := foldl_maxTriple_comp rest p
    rcases List.mem_cons.mp hmem with hh | hh
    · refine ⟨?_, ?_, ?_, ?_, ?_, ?_⟩ <;>
        [skip; skip; skip; skip; skip; skip] <;>
        simp only [hm1, hm2, hm3, hx1, hx2, hx3, hh] <;>
        [exact le_trans (by linarith [(foldl_min_le
            (l := rest.map (fun q => q.1)) (a := p.1)).1]) (le_refl _);
         exact le_trans (le_foldl_max (l := rest.map (fun q => q.1)) (a := p.1)).1
           (by linarith);
         exact le_trans (by linarith [(foldl_min_le
            (l := rest.map (fun q => q.2.1)) (a := p.2.1)).1]) (le_refl _);
         exact le_trans (le_foldl_max (l := rest.map (fun q => q.2.1)) (a := p.2.1)).1
           (by linarith);
         exact le_trans (by linarith [(foldl_min_le
            (l := rest.map (fun q => q.2.2)) (a := p.2.2)).1]) (le_refl _);
         exact le_trans (le_foldl_max (l := rest.map (fun q => q.2.2)) (a := p.2.2)).1
           (by linarith)]
    · refine ⟨?_, ?_, ?_, ?_, ?_, ?_⟩ <;>
        simp only [hm1, hm2, hm3, hx1, hx2, hx3]
      · have := (foldl_min_le (l := rest.map (fun q => q.1)) (a := p.1)).2
          (d.pos i).1 (List.mem_map.mpr ⟨d.pos i, hh, rfl⟩)
        linarith
      · have := (le_foldl_max (l := rest.map (fun q => q.1)) (a := p.1)).2
          (d.pos i).1 (List.mem_map.mpr ⟨d.pos i, hh, rfl⟩)
        linarith
      · have := (foldl_min_le (l := rest.map (fun q => q.2.1)) (a := p.2.1)).2
          (d.pos i).2.1 (List.mem_map.mpr ⟨d.pos i, hh, rfl⟩)
        linarith
      · have := (le_foldl_max (l := rest.map (fun q => q.2.1)) (a := p.2.1)).2
          (d.pos i).2.1 (List.mem_map.mpr ⟨d.pos i, hh, rfl⟩)
        linarith
      · have := (foldl_min_le (l := rest.map (fun q => q.2.2)) (a := p.2.2)).2
          (d.pos i).2.2 (List.mem_map.mpr ⟨d.pos i, hh, rfl⟩)
        linarith
      · have := (le_foldl_max (l := rest.map (fun q => q.2.2)) (a := p.2.2)).2
          (d.pos i).2.2 (List.mem_map.mpr ⟨d.pos i, hh, rfl⟩)
        linarith

/-- The grid box is non-degenerate (per axis min ≤ max). -/
theorem bounds_le (cs : ℚ) (d : PointSet) (hcs : 0 < cs) :
    (computeBounds cs d).1.1 ≤ (computeBounds cs d).2.1 ∧
      (computeBounds cs d).1.2.1 ≤ (computeBounds cs d).2.2.1 ∧
      (computeBounds cs d).1.2.2 ≤ (computeBounds cs d).2.2.2 := by
  rcases hpos : d.positions with _ | ⟨p, rest⟩
  · rw [computeBounds, hpos]
    norm_num
  · have hi : 0 < d.count := by
      rw [PointSet.count, hpos]
      simp
    have h0 := pos_in_bounds cs d hcs 0 hi
    rw [inBox] at h0
    exact ⟨le_trans h0.1 h0.2.1, le_trans h0.2.2.1 h0.2.2.2.1,
      le_trans h0.2.2.2.2.1 h0.2.2.2.2.2⟩

theorem one_le_toNat_max_one (z : ℤ) : 1 ≤ (max 1 z).toNat := by
  have := le_max_left 1 z
  omega

theorem gridDims_pos (mn mx : ℚ × ℚ × ℚ) (cs : ℚ) :
    1 ≤ (computeGridDims mn mx cs).1 ∧ 1 ≤ (computeGridDims mn mx cs).2.1 ∧
      1 ≤ (computeGridDims mn mx cs).2.2 :=
  ⟨one_le_toNat_max_one _, one_le_toNat_max_one _, one_le_toNat_max_one _⟩

theorem clampIdx_range (dim : ℕ) (hdim : 1 ≤ dim) (v : ℤ) :
    0 ≤ clampIdx dim v ∧ clampIdx dim v ≤ (dim : ℤ) - 1 := by
  rw [clampIdx]
  constructor
  · exact le_max_left 0 _
  · have h1 : min ((dim : ℤ) - 1) v ≤ (dim : ℤ) - 1 := min_le_left _ _
    have h2 : (0 : ℤ) ≤ (dim : ℤ) - 1 := by
      have : (1 : ℤ) ≤ (dim : ℤ) := by exact_mod_cast hdim
      omega
    omega

theorem mem_intRange {a b x : ℤ} : x ∈ intRange a b ↔ a ≤ x ∧ x ≤ b := by
  rw [intRange]
  simp only [List.mem_map, List.mem_range]
  constructor
  · rintro ⟨j, hj, rfl⟩
    omega
  · intro ⟨h1, h2⟩
    exact ⟨(x - a).toNat, by omega, by omega⟩

theorem nodup_intRange (a b : ℤ) : (intRange a b).Nodup := by
  rw [intRange]
  exact (List.nodup_range _).map (fun x y h => by omega)

/-- The querySphere loop visits the (cx, cy, cz) keys exactly once each. -/
theorem nodup_keyProd (xs ys zs : List ℤ) (hx : xs.Nodup) (hy : ys.Nodup)
    (hz : zs.Nodup) :
    (xs.flatMap (fun cx => ys.flatMap (fun cy =>
      zs.map (fun cz => ((cx, cy, cz) : ℤ × ℤ × ℤ))))).Nodup := by
  induction xs with
  | nil => exact List.nodup_nil
  | cons x xs' ih =>
      rw [List.nodup_cons] at hx
      rw [List.flatMap_cons]
      apply List.Nodup.append
      · clear ih
        induction ys with
        | nil => exact List.nodup_nil
        | cons y ys' ihy =>
            rw [List.nodup_cons] at hy
            rw [List.flatMap_cons]
            apply List.Nodup.append
            · exact hz.map (fun a b h => by
                have := congrArg (fun p : ℤ × ℤ × ℤ => p.2.2) h
                simpa using this)
            · exact ihy hy.2
            · intro e he1 he2
              obtain ⟨cz, -, rfl⟩ := List.mem_map.mp he1
              obtain ⟨cy', hcy', hcz'⟩ := List.mem_flatMap.mp he2
              obtain ⟨cz', -, heq⟩ := List.mem_map.mp hcz'
              have hy2 := congrArg (fun p : ℤ × ℤ × ℤ => p.2.1) heq
              simp only at hy2
              exact hy.1 (hy2 ▸ hcy')
      · exact ih hx.2
      · intro e he1 he2
        obtain ⟨cy, -, hcy⟩ := List.mem_flatMap.mp he1
        obtain ⟨cz, -, rfl⟩ := List.mem_map.mp hcy
        obtain ⟨cx', hcx', hcy'⟩ := List.mem_flatMap.mp he2
        obtain ⟨cy', -, hcz'⟩ := List.mem_flatMap.mp hcy'
        obtain ⟨cz', -, heq⟩ := List.mem_map.mp hcz'
        have hx1 := congrArg (fun p : ℤ × ℤ × ℤ => p.1) heq
        simp only at hx1
        exact hx.1 (hx1 ▸ hcx')

theorem mem_keyProd {xs ys zs : List ℤ} {k : ℤ × ℤ × ℤ} :
    k ∈ (xs.flatMap (fun cx => ys.flatMap (fun cy =>
        zs.map (fun cz => ((cx, cy, cz) : ℤ × ℤ × ℤ))))) ↔
      k.1 ∈ xs ∧ k.2.1 ∈ ys ∧ k.2.2 ∈ zs := by
  obtain ⟨kx, ky, kz⟩ := k
  simp only [List.mem_flatMap, List.mem_map, Prod.mk.injEq]
  constructor
  · rintro ⟨cx, hcx, cy, hcy, cz, hcz, rfl, rfl, rfl⟩
    exact ⟨hcx, hcy, hcz⟩
  · rintro ⟨h1, h2, h3⟩
    exact ⟨kx, h1, ky, h2, kz, h3, rfl, rfl, rfl⟩

theorem sq_le_of_le_of_le {x r : ℚ} (h : x ^ 2 ≤ r * r) (hr : 0 ≤ r) : x ≤ r := by
  nlinarith

theorem sum_map_lower (l : List ℕ) (f : ℕ → ℚ) (lo : ℚ) (h : ∀ i ∈ l, lo ≤ f i) :
    (l.length : ℚ) * lo ≤ (l.map f).sum := by
  induction l with
  | nil => simp
  | cons a t ih =>
      have ha := h a (List.mem_cons_self a t)
      have ht := ih (fun i hi => h i (List.mem_cons_of_mem a hi))
      rw [List.map_cons, List.sum_cons, List.length_cons]
      push_cast
      nlinarith

theorem sum_map_upper (l : List ℕ) (f : ℕ → ℚ) (hi : ℚ) (h : ∀ i ∈ l, f i ≤ hi) :
    (l.map f).sum ≤ (l.length : ℚ) * hi := by
  induction l with
  | nil => simp
  | cons a t ih =>
      have ha := h a (List.mem_cons_self a t)
      have ht := ih (fun i hmem => h i (List.mem_cons_of_mem a hmem))
      rw [List.map_cons, List.sum_cons, List.length_cons]
      push_cast
      nlinarith

/-- The totalCount accumulated by the query loop, as a sum of per-key
contributions. -/
def queryContrib (cells : List ((ℤ × ℤ × ℤ) × GridCell)) (center : ℚ × ℚ × ℚ)
    (rsq : ℚ) (k : ℤ × ℤ × ℤ) : ℕ :=
  match lookupA k cells with
  | none => 0
  | some c =>
    if c.count = 0 then 0
    else
      match c.centroid with
      | none => 0
      | some cen => if distSq cen center ≤ rsq then c.count else 0

theorem query_fold_totalCount (cells : List ((ℤ × ℤ × ℤ) × GridCell))
    (center : ℚ × ℚ × ℚ) (rsq : ℚ) :
    ∀ (L : List (ℤ × ℤ × ℤ)) (acc : QueryResult),
      (L.foldl (queryStep cells center rsq) acc).totalCount =
        acc.totalCount + (L.map (queryContrib cells center rsq)).sum := by
  intro L
  induction L with
  | nil => intro acc; simp
  | cons k tl ih =>
      intro acc
      rw [List.foldl_cons, ih, List.map_cons, List.sum_cons]
      have hstep : (queryStep cells center rsq acc k).totalCount =
          acc.totalCount + queryContrib cells center rsq k := by
        rw [queryStep, queryContrib]
        cases lookupA k cells with
        | none => simp
        | some c =>
            by_cases hz : c.count = 0
            · simp [hz]
            · simp only [hz, if_neg, not_false_iff]
              cases c.centroid with
              | none => simp
              | some cen =>
                  by_cases hd : distSq cen center ≤ rsq
                  · simp [hd]
                  · simp [hd]
      rw [hstep]
      ring

/-- Summing a lookup-based contribution over a superset of the stored keys
equals summing over the stored entries. -/
theorem sum_lookup_entries {κ β : Type} [DecidableEq κ]
    (g : κ → β → ℕ) :
    ∀ (es : List (κ × β)) (L : List κ), L.Nodup → (es.map Prod.fst).Nodup →
      (∀ e ∈ es, e.1 ∈ L) →
      (L.map (fun k => match lookupA k es with
        | some b => g k b
        | none => 0)).sum = (es.map (fun e => g e.1 e.2)).sum := by
  intro es
  induction es with
  | nil =>
      intro L _ _ _
      rw [List.map_nil, List.sum_nil]
      apply List.sum_eq_zero
      intro x hx
      obtain ⟨k, -, rfl⟩ := List.mem_map.mp hx
      rfl
  | cons e es' ih =>
      intro L hL hnd hsub
      rw [List.map_cons, List.sum_cons]
      simp only [List.map_cons, List.nodup_cons] at hnd
      have heL : e.1 ∈ L := hsub e (List.mem_cons_self e es')
      have hperm : L.Perm (e.1 :: L.erase e.1) := List.perm_cons_erase heL
      rw [List.Perm.sum_eq (hperm.map _), List.map_cons, List.sum_cons]
      have hlook : lookupA e.1 (e :: es') = some e.2 := by
        rw [show e = (e.1, e.2) from rfl, lookupA]
        simp
      rw [hlook]
      congr 1
      have herase : ∀ k ∈ L.erase e.1,
          (match lookupA k (e :: es') with
            | some b => g k b
            | none => 0) =
          (match lookupA k es' with
            | some b => g k b
            | none => 0) := by
        intro k hk
        have hkne : e.1 ≠ k := by
          intro he
          exact (List.Nodup.not_mem_erase hL) (he ▸ hk)
        rw [show (e : κ × β) = (e.1, e.2) from rfl, lookupA]
        simp [hkne]
      rw [List.map_congr_left herase]
      apply ih (L.erase e.1) (hL.erase e.1) hnd.2
      intro e' he'
      have hne : e'.1 ≠ e.1 := by
        intro he
        exact hnd.1 (he ▸ List.mem_map.mpr ⟨e', he', rfl⟩)
      exact (List.mem_erase_of_ne hne).mpr (hsub e' (List.mem_cons_of_mem e he'))

/-- When the sphere reaches past both faces of the grid box on an axis, the
clamped loop bounds of querySphere cover the full index range of that axis. -/
theorem axis_range_full (cs : ℚ) (hcs : 0 < cs) (lo hi c r : ℚ)
    (hlohi : lo ≤ hi) (hlo : c - r ≤ lo) (hhi : hi ≤ c + r) :
    max 0 ⌊(c - r - lo) / cs⌋ = 0 ∧
      min (((max 1 ⌈(hi - lo) / cs⌉).toNat : ℤ) - 1) ⌈(c + r - lo) / cs⌉ =
        ((max 1 ⌈(hi - lo) / cs⌉).toNat : ℤ) - 1 := by
  constructor
  · apply max_eq_left
    have hdiv : (c - r - lo) / cs ≤ 0 := by
      apply div_nonpos_of_nonpos_of_nonneg (by linarith) (le_of_lt hcs)
    have := Int.floor_le_floor hdiv
    rwa [Int.floor_zero] at this
  · apply min_eq_left
    have hsize : (0 : ℚ) ≤ (hi - lo) / cs := div_nonneg (by linarith) (le_of_lt hcs)
    have hmono : (hi - lo) / cs ≤ (c + r - lo) / cs :=
      (div_le_div_right hcs).mpr (by linarith)
    have hceil : ⌈(hi - lo) / cs⌉ ≤ ⌈(c + r - lo) / cs⌉ := Int.ceil_le_ceil hmono
    have hceil0 : (0 : ℤ) ≤ ⌈(c + r - lo) / cs⌉ :=
      Int.ceil_nonneg (le_trans hsize hmono)
    have hmax : ((max 1 ⌈(hi - lo) / cs⌉).toNat : ℤ) = max 1 ⌈(hi - lo) / cs⌉ := by
      have := le_max_left (1 : ℤ) ⌈(hi - lo) / cs⌉
      omega
    rw [hmax]
    rcases le_total (1 : ℤ) ⌈(hi - lo) / cs⌉ with h | h
    · rw [max_eq_right h]
      omega
    · rw [max_eq_left h]
      omega

/-- All cell keys of a grid with the given dimensions, in loop order. -/
def allKeys (dims : ℕ × ℕ × ℕ) : List (ℤ × ℤ × ℤ) :=
  (intRange 0 ((dims.1 : ℤ) - 1)).flatMap fun cx =>
    (intRange 0 ((dims.2.1 : ℤ) - 1)).flatMap fun cy =>
      (intRange 0 ((dims.2.2 : ℤ) - 1)).map fun cz => (cx, cy, cz)

theorem nodup_allKeys (dims : ℕ × ℕ × ℕ) : (allKeys dims).Nodup :=
  nodup_keyProd _ _ _ (nodup_intRange _ _) (nodup_intRange _ _) (nodup_intRange _ _)

theorem sphereKeys_full (dims : ℕ × ℕ × ℕ) (mn : ℚ × ℚ × ℚ) (cs : ℚ)
    (center : ℚ × ℚ × ℚ) (radius : ℚ)
    (h1 : max 0 ⌊(center.1 - radius - mn.1) / cs⌋ = 0)
    (h2 : min ((dims.1 : ℤ) - 1) ⌈(center.1 + radius - mn.1) / cs⌉ = (dims.1 : ℤ) - 1)
    (h3 : max 0 ⌊(center.2.1 - radius - mn.2.1) / cs⌋ = 0)
    (h4 : min ((dims.2.1 : ℤ) - 1) ⌈(center.2.1 + radius - mn.2.1) / cs⌉ =
      (dims.2.1 : ℤ) - 1)
    (h5 : max 0 ⌊(center.2.2 - radius - mn.2.2) / cs⌋ = 0)
    (h6 : min ((dims.2.2 : ℤ) - 1) ⌈(center.2.2 + radius - mn.2.2) / cs⌉ =
      (dims.2.2 : ℤ) - 1) :
    sphereKeys dims mn cs center radius = allKeys dims := by
  rw [sphereKeys, allKeys]
  rw [h1, h2, h3, h4, h5, h6]

/-- The per-cell contribution of querySphere's loop body once a cell is found. -/
def cellContrib (center : ℚ × ℚ × ℚ) (rsq : ℚ) (c : GridCell) : ℕ :=
  if c.count = 0 then 0
  else
    match c.centroid with
    | none => 0
    | some cen => if distSq cen center ≤ rsq then c.count else 0

/-- Every cell of a fresh build is populated and its finalized centroid (the
mean of its points' positions) lies inside the grid box. -/
theorem build_cell_centroid_in_box (cs : ℚ) (d : PointSet) (hcs : 0 < cs)
    {k : ℤ × ℤ × ℤ} {c : GridCell}
    (h : (k, c) ∈ ((SpatialGrid.mkGrid cs).build d).cells) :
    0 < c.count ∧ ∃ cen, c.centroid = some cen ∧
      inBox (computeBounds cs d).1 (computeBounds cs d).2 cen := by
  obtain ⟨hne, hc⟩ := mem_build_cells cs d h
  have hlen : 0 < (groupOf (buildKey cs d) d.count k).length := List.length_pos.mpr hne
  have hcnt : (cellAgg d (groupOf (buildKey cs d) d.count k)).count =
      (groupOf (buildKey cs d) d.count k).length := cellAgg_count d _
  have hcount0 : ¬ ((cellAgg d (groupOf (buildKey cs d) d.count k)).count = 0) := by
    omega
  have hmemlt : ∀ i ∈ groupOf (buildKey cs d) d.count k, i < d.count := by
    intro i hi
    exact List.mem_range.mp (List.mem_filter.mp hi).1
  have hlenq : (0 : ℚ) < ((groupOf (buildKey cs d) d.count k).length : ℚ) := by
    exact_mod_cast hlen
  subst hc
  refine ⟨by rw [finalizeCell_count]; omega, ?_⟩
  rw [finalizeCell, if_neg hcount0]
  refine ⟨_, rfl, ?_⟩
  rw [inBox]
  rw [cellAgg_sumX, cellAgg_sumY, cellAgg_sumZ, hcnt]
  have hboxes := fun i (hi : i ∈ groupOf (buildKey cs d) d.count k) =>
    pos_in_bounds cs d hcs i (hmemlt i hi)
  refine ⟨?_, ?_, ?_, ?_, ?_, ?_⟩
  · rw [le_div_iff hlenq, mul_comm]
    exact sum_map_lower _ _ _ (fun i hi => (hboxes i hi).1)
  · rw [div_le_iff hlenq, mul_comm]
    exact sum_map_upper _ _ _ (fun i hi => (hboxes i hi).2.1)
  · rw [le_div_iff hlenq, mul_comm]
    exact sum_map_lower _ _ _ (fun i hi => (hboxes i hi).2.2.1)
  · rw [div_le_iff hlenq, mul_comm]
    exact sum_map_upper _ _ _ (fun i hi => (hboxes i hi).2.2.2.1)
  · rw [le_div_iff hlenq, mul_comm]
    exact sum_map_lower _ _ _ (fun i hi => (hboxes i hi).2.2.2.2.1)
  · rw [div_le_iff hlenq, mul_comm]
    exact sum_map_upper _ _ _ (fun i hi => (hboxes i hi).2.2.2.2.2)

theorem build_cells_count_sum (cs : ℚ) (d : PointSet) :
    (((SpatialGrid.mkGrid cs).build d).cells.map (fun e => e.2.count)).sum = d.count := by
  rw [build_cells_eq, List.map_map]
  have : ((fun e : (ℤ × ℤ × ℤ) × GridCell => e.2.count) ∘
      (fun e : (ℤ × ℤ × ℤ) × GridCell => (e.1, finalizeCell e.2))) =
      fun e => e.2.count := by
    funext e
    exact finalizeCell_count e.2
  rw [this]
  exact sum_accList _ _ _ _ (fun c : GridCell => c.count) rfl (fun i b => rfl)

theorem build_cells_keys_nodup (cs : ℚ) (d : PointSet) :
    (((SpatialGrid.mkGrid cs).build d).cells.map Prod.fst).Nodup := by
  rw [build_cells_eq, List.map_map]
  have : (Prod.fst ∘ (fun e : (ℤ × ℤ × ℤ) × GridCell => (e.1, finalizeCell e.2))) =
      (Prod.fst : (ℤ × ℤ × ℤ) × GridCell → ℤ × ℤ × ℤ) := rfl
  rw [this]
  exact nodup_keys_accList _ _ _ _

theorem build_cells_key_mem (cs : ℚ) (d : PointSet) :
    ∀ e ∈ ((SpatialGrid.mkGrid cs).build d).cells,
      e.1 ∈ allKeys (computeGridDims (computeBounds cs d).1 (computeBounds cs d).2 cs) := by
  intro e he
  obtain ⟨k, c⟩ := e
  obtain ⟨hne, -⟩ := mem_build_cells cs d he
  obtain ⟨i, hi⟩ := List.exists_mem_of_ne_nil _ hne
  have hkey : buildKey cs d i = k := by
    have := (List.mem_filter.mp hi).2
    simpa using this
  obtain ⟨hd1, hd2, hd3⟩ := gridDims_pos (computeBounds cs d).1 (computeBounds cs d).2 cs
  have h1 := clampIdx_range _ hd1
    ⌊((d.pos i).1 - (computeBounds cs d).1.1) / cs⌋
  have h2 := clampIdx_range _ hd2
    ⌊((d.pos i).2.1 - (computeBounds cs d).1.2.1) / cs⌋
  have h3 := clampIdx_range _ hd3
    ⌊((d.pos i).2.2 - (computeBounds cs d).1.2.2) / cs⌋
  rw [allKeys, mem_keyProd, ← hkey]
  rw [buildKey, cellIndexOf]
  exact ⟨mem_intRange.mpr ⟨h1.1, h1.2⟩, mem_intRange.mpr ⟨h2.1, h2.2⟩,
    mem_intRange.mpr ⟨h3.1, h3.2⟩⟩

set_option maxHeartbeats 2000000 in
/-- C6 (confirmed): on a freshly built grid, a sphere query whose radius
covers the whole grid box (every point of the box is within the radius of the
center) returns totalCount equal to the sum of count over all populated
cells, which equals the input point count. -/
theorem querySphere_full_cover (cs : ℚ) (d : PointSet) (center : ℚ × ℚ × ℚ)
    (radius : ℚ) (hcs : 0 < cs) (hv : ValidPointSet d) (hr : 0 ≤ radius)
    (hcov : ∀ q : ℚ × ℚ × ℚ,
      inBox ((SpatialGrid.mkGrid cs).build d).gridMin
        ((SpatialGrid.mkGrid cs).build d).gridMax q →
      distSq q center ≤ radius * radius) :
    (((SpatialGrid.mkGrid cs).build d).querySphere center radius).totalCount =
        ((((SpatialGrid.mkGrid cs).build d).cells.filter
          (fun e => 0 < e.2.count)).map (fun e => e.2.count)).sum ∧
      (((SpatialGrid.mkGrid cs).build d).querySphere center radius).totalCount =
        d.count := by
  have hbuilt : ((SpatialGrid.mkGrid cs).build d).built = true := rfl
  have hq : (((SpatialGrid.mkGrid cs).build d).querySphere center radius).totalCount =
      ((sphereKeys ((SpatialGrid.mkGrid cs).build d).gridDims
          ((SpatialGrid.mkGrid cs).build d).gridMin
          ((SpatialGrid.mkGrid cs).build d).cellSize center radius).foldl
        (queryStep ((SpatialGrid.mkGrid cs).build d).cells center (radius * radius))
        ⟨0, fun _ => 0, fun _ => 0, 0, 1, 0, 0, (0, 0)⟩).totalCount := by
    rw [SpatialGrid.querySphere, hbuilt]
    simp
  obtain ⟨hb1, hb2, hb3⟩ := bounds_le cs d hcs
  have hmnbox : inBox (computeBounds cs d).1 (computeBounds cs d).2
      (computeBounds cs d).1 := ⟨le_refl _, hb1, le_refl _, hb2, le_refl _, hb3⟩
  have hmxbox : inBox (computeBounds cs d).1 (computeBounds cs d).2
      (computeBounds cs d).2 := ⟨hb1, le_refl _, hb2, le_refl _, hb3, le_refl _⟩
  have h1 := hcov (computeBounds cs d).1 hmnbox
  have h2 := hcov (computeBounds cs d).2 hmxbox
  rw [distSq] at h1 h2
  have hxlo : center.1 - radius ≤ (computeBounds cs d).1.1 := by
    have hsq : (center.1 - (computeBounds cs d).1.1) ^ 2 ≤ radius * radius := by
      nlinarith [sq_nonneg ((computeBounds cs d).1.2.1 - center.2.1),
        sq_nonneg ((computeBounds cs d).1.2.2 - center.2.2)]
    linarith [sq_le_of_le_of_le hsq hr]
  have hylo : center.2.1 - radius ≤ (computeBounds cs d).1.2.1 := by
    have hsq : (center.2.1 - (computeBounds cs d).1.2.1) ^ 2 ≤ radius * radius := by
      nlinarith [sq_nonneg ((computeBounds cs d).1.1 - center.1),
        sq_nonneg ((computeBounds cs d).1.2.2 - center.2.2)]
    linarith [sq_le_of_le_of_le hsq hr]
  have hzlo : center.2.2 - radius ≤ (computeBounds cs d).1.2.2 := by
    have hsq : (center.2.2 - (computeBounds cs d).1.2.2) ^ 2 ≤ radius * radius := by
      nlinarith [sq_nonneg ((computeBounds cs d).1.1 - center.1),
        sq_nonneg ((computeBounds cs d).1.2.1 - center.2.1)]
    linarith [sq_le_of_le_of_le hsq hr]
  have hxhi : (computeBounds cs d).2.1 ≤ center.1 + radius := by
    have hsq : ((computeBounds cs d).2.1 - center.1) ^ 2 ≤ radius * radius := by
      nlinarith [sq_nonneg ((computeBounds cs d).2.2.1 - center.2.1),
        sq_nonneg ((computeBounds cs d).2.2.2 - center.2.2)]
    linarith [sq_le_of_le_of_le hsq hr]
  have hyhi : (computeBounds cs d).2.2.1 ≤ center.2.1 + radius := by
    have hsq : ((computeBounds cs d).2.2.1 - center.2.1) ^ 2 ≤ radius * radius := by
      nlinarith [sq_nonneg ((computeBounds cs d).2.1 - center.1),
        sq_nonneg ((computeBounds cs d).2.2.2 - center.2.2)]
    linarith [sq_le_of_le_of_le hsq hr]
  have hzhi : (computeBounds cs d).2.2.2 ≤ center.2.2 + radius := by
    have hsq : ((computeBounds cs d).2.2.2 - center.2.2) ^ 2 ≤ radius * radius := by
      nlinarith [sq_nonneg ((computeBounds cs d).2.1 - center.1),
        sq_nonneg ((computeBounds cs d).2.2.1 - center.2.1)]
    linarith [sq_le_of_le_of_le hsq hr]
  obtain ⟨hax1, hax2⟩ := axis_range_full cs hcs
    (computeBounds cs d).1.1 (computeBounds cs d).2.1 center.1 radius hb1 hxlo hxhi
  obtain ⟨hay1, hay2⟩ := axis_range_full cs hcs
    (computeBounds cs d).1.2.1 (computeBounds cs d).2.2.1 center.2.1 radius hb2
    hylo hyhi
  obtain ⟨haz1, haz2⟩ := axis_range_full cs hcs
    (computeBounds cs d).1.2.2 (computeBounds cs d).2.2.2 center.2.2 radius hb3
    hzlo hzhi
  have hkeys := sphereKeys_full
    (computeGridDims (computeBounds cs d).1 (computeBounds cs d).2 cs)
    (computeBounds cs d).1 cs center radius hax1 hax2 hay1 hay2 haz1 haz2
  have hmin : ((SpatialGrid.mkGrid cs).build d).gridMin = (computeBounds cs d).1 := rfl
  have hdims : ((SpatialGrid.mkGrid cs).build d).gridDims =
      computeGridDims (computeBounds cs d).1 (computeBounds cs d).2 cs := rfl
  have hcsz : ((SpatialGrid.mkGrid cs).build d).cellSize = cs := rfl
  rw [hdims, hmin, hcsz, hkeys, query_fold_totalCount] at hq
  have hsum := sum_lookup_entries (fun _ b => cellContrib center (radius * radius) b)
    ((SpatialGrid.mkGrid cs).build d).cells
    (allKeys (computeGridDims (computeBounds cs d).1 (computeBounds cs d).2 cs))
    (nodup_allKeys _) (build_cells_keys_nodup cs d) (build_cells_key_mem cs d)
  have hcell : ∀ e ∈ ((SpatialGrid.mkGrid cs).build d).cells,
      cellContrib center (radius * radius) e.2 = e.2.count := by
    intro e he
    obtain ⟨k, c⟩ := e
    obtain ⟨hpos, cen, hcen, hbox⟩ := build_cell_centroid_in_box cs d hcs he
    rw [cellContrib, if_neg hpos.ne', hcen]
    exact if_pos (hcov cen hbox)
  have htotal : (((SpatialGrid.mkGrid cs).build d).querySphere center radius).totalCount
      = d.count := by
    have hle : ((allKeys (computeGridDims (computeBounds cs d).1
          (computeBounds cs d).2 cs)).map
        (queryContrib ((SpatialGrid.mkGrid cs).build d).cells center
          (radius * radius))).sum =
        (((SpatialGrid.mkGrid cs).build d).cells.map
          (fun e => (fun (x : ℤ × ℤ × ℤ) b =>
            cellContrib center (radius * radius) b) e.1 e.2)).sum := by
      rw [← hsum]
      apply congrArg List.sum
      apply List.map_congr_left
      intro k _
      rw [queryContrib]
      cases lookupA k ((SpatialGrid.mkGrid cs).build d).cells <;> rfl
    have hcnt : (((SpatialGrid.mkGrid cs).build d).cells.map
        (fun e => (fun (x : ℤ × ℤ × ℤ) b =>
          cellContrib center (radius * radius) b) e.1 e.2)).sum =
        (((SpatialGrid.mkGrid cs).build d).cells.map (fun e => e.2.count)).sum := by
      apply congrArg List.sum
      apply List.map_congr_left
      intro e he
      exact hcell e he
    rw [hq, hle, hcnt, build_cells_count_sum]
    simp
  exact ⟨htotal.trans (build_populated_count_sum cs d).symm, htotal⟩

/-- On the one-point set with cell size 1, the grid box is the half-unit pad
around the origin, so every point of the box is within distance 100 of the
origin. -/
theorem dOnePoint_cov : ∀ q : ℚ × ℚ × ℚ,
    inBox ((SpatialGrid.mkGrid 1).build dOnePoint).gridMin
      ((SpatialGrid.mkGrid 1).build dOnePoint).gridMax q →
    distSq q (0, 0, 0) ≤ 100 * 100 := by
  intro q hq
  have hmin : ((SpatialGrid.mkGrid 1).build dOnePoint).gridMin =
      (computeBounds 1 dOnePoint).1 := rfl
  have hmax : ((SpatialGrid.mkGrid 1).build dOnePoint).gridMax =
      (computeBounds 1 dOnePoint).2 := rfl
  rw [hmin, hmax, inBox] at hq
  have hb : computeBounds 1 dOnePoint =
      ((-(1 / 2), -(1 / 2), -(1 / 2)), (1 / 2, 1 / 2, 1 / 2)) := by
    norm_num [computeBounds, dOnePoint]
  rw [hb] at hq
  simp only at hq
  obtain ⟨h1, h2, h3, h4, h5, h6⟩ := hq
  rw [distSq]
  simp only
  nlinarith [mul_nonneg (by linarith : (0 : ℚ) ≤ q.1 + 1 / 2)
      (by linarith : (0 : ℚ) ≤ 1 / 2 - q.1),
    mul_nonneg (by linarith : (0 : ℚ) ≤ q.2.1 + 1 / 2)
      (by linarith : (0 : ℚ) ≤ 1 / 2 - q.2.1),
    mul_nonneg (by linarith : (0 : ℚ) ≤ q.2.2 + 1 / 2)
      (by linarith : (0 : ℚ) ≤ 1 / 2 - q.2.2)]

theorem querySphere_full_cover_witness :
    (0 : ℚ) < 1 ∧ (0 : ℚ) ≤ 100 ∧
    ((((SpatialGrid.mkGrid 1).build dOnePoint).querySphere (0, 0, 0)
          100).totalCount =
        ((((SpatialGrid.mkGrid 1).build dOnePoint).cells.filter
          (fun e => 0 < e.2.count)).map (fun e => e.2.count)).sum ∧
      (((SpatialGrid.mkGrid 1).build dOnePoint).querySphere (0, 0, 0)
          100).totalCount = dOnePoint.count) :=
  ⟨by norm_num, by norm_num,
    querySphere_full_cover 1 dOnePoint (0, 0, 0) 100 (by norm_num)
      dOnePoint_valid (by norm_num) dOnePoint_cov⟩
